import Mathlib

/-!
Verification of the claude-code-proxy gateway core against its source.

The Python source under `src/` is embedded shallowly:
* `src/core/api_key_manager.py`  — `KMState`, `getNextKey`, `markKeyFailed`, ...
* `src/core/client.py`           — the streaming dispatch loop `createChatCompletionStream`
* `src/conversion/request_converter.py`  — `convert_claude_to_openai` and helpers
* `src/conversion/response_converter.py` — the non-streaming converter and the two
  streaming translators (plain and cancellation-aware)

Machine integers are modelled as `Int` (Python integers are unbounded), wall-clock
timestamps as `Int`, and Python dictionaries either as structures (when the key set
is fixed by the code) or as association lists in insertion order (Python dicts
preserve insertion order).  `json.loads` on accumulated argument buffers is
modelled by an arbitrary validity oracle `String → Bool` that theorems quantify
over.  Generators are modelled as functions returning the list of yielded items.
-/

namespace CCProxy

/-! ## A small JSON value model (for structured payloads carried through the code) -/

inductive JVal where
  | null : JVal
  | bool (b : Bool) : JVal
  | num (n : Int) : JVal
  | str (s : String) : JVal
  | arr (items : List JVal) : JVal
  | obj (fields : List (String × JVal)) : JVal

/-- Association-list lookup, first match wins (Python dict `get`). -/
def jlookup (fields : List (String × JVal)) (k : String) : Option JVal :=
  match fields.find? (fun p => p.1 == k) with
  | some p => some p.2
  | none => none

def JVal.getField (v : JVal) (k : String) : Option JVal :=
  match v with
  | .obj fs => jlookup fs k
  | _ => none

/-! ## Key Manager (src/core/api_key_manager.py) -/

/-- State of `APIKeyManager`: the key list, the cooldown period (seconds), the
round-robin cursor and the `failed_keys` dict (key → failure timestamp),
kept as an association list in insertion order. -/
structure KMState where
  api_keys : List String
  cooldown_period : Int
  current_index : Nat
  failed_keys : List (String × Int)
deriving DecidableEq, Repr

/-- `APIKeyManager.__init__`. -/
def initKM (keys : List String) (cooldown : Int) : KMState :=
  { api_keys := keys, cooldown_period := cooldown, current_index := 0, failed_keys := [] }

/-- Membership test in the `failed_keys` dict (`key not in self.failed_keys`). -/
def inFailed (failed : List (String × Int)) (k : String) : Bool :=
  failed.any (fun p => p.1 == k)

/-- The lazy cooldown eviction at the top of `get_next_key`: entries with
`current_time - fail_time > cooldown_period` are deleted. -/
def evictExpired (st : KMState) (now : Int) : KMState :=
  { st with failed_keys := st.failed_keys.filter (fun p => !(decide (now - p.2 > st.cooldown_period))) }

/-- The scan loop of `get_next_key`: starting at `idx`, for at most `fuel`
attempts take `api_keys[idx]`, advance the cursor circularly, and return the
first key not in the (already evicted) cooldown dict.  Returns the selected key
(if any) and the final cursor.  The `none` arm of the index lookup mirrors the
fact that the loop body never runs out of range: the cursor is always reduced
modulo the list length before indexing. -/
def scanNext (keys : List String) (failed : List (String × Int)) :
    Nat → Nat → Option String × Nat
  | 0, idx => (none, idx)
  | fuel + 1, idx =>
    match keys[idx]? with
    | none => (none, idx)
    | some k =>
      let idx' := (idx + 1) % keys.length
      if inFailed failed k then scanNext keys failed fuel idx'
      else (some k, idx')

/-- `get_next_key`: evict expired cooldowns, then scan at most
`len(self.api_keys)` candidates from the cursor. -/
def getNextKey (st : KMState) (now : Int) : Option String × KMState :=
  let st' := evictExpired st now
  let (res, idx') := scanNext st'.api_keys st'.failed_keys st'.api_keys.length st'.current_index
  (res, { st' with current_index := idx' })

/-- `mark_key_failed`: record/overwrite the failure timestamp (dict assignment:
an existing entry keeps its position, a new one is appended). -/
def markKeyFailed (st : KMState) (key : String) (now : Int) : KMState :=
  if st.failed_keys.any (fun p => p.1 == key) then
    { st with failed_keys := st.failed_keys.map (fun p => if p.1 == key then (p.1, now) else p) }
  else
    { st with failed_keys := st.failed_keys ++ [(key, now)] }

/-- `get_available_key_count`: keys never failed, or whose cooldown elapsed. -/
def availableKeyCount (st : KMState) (now : Int) : Nat :=
  st.api_keys.countP (fun k =>
    match st.failed_keys.find? (fun p => p.1 == k) with
    | none => true
    | some p => decide (now - p.2 > st.cooldown_period))

/-! ### Key Manager lemmas -/

theorem scanNext_sound (keys : List String) (failed : List (String × Int)) :
    ∀ fuel idx k idx', scanNext keys failed fuel idx = (some k, idx') →
      k ∈ keys ∧ inFailed failed k = false := by
  intro fuel
  induction fuel with
  | zero => intro idx k idx' h; simp [scanNext] at h
  | succ n ih =>
    intro idx k idx' h
    simp only [scanNext] at h
    cases hk : keys[idx]? with
    | none => rw [hk] at h; simp at h
    | some k0 =>
      rw [hk] at h
      dsimp only at h
      by_cases hf : inFailed failed k0
      · rw [if_pos hf] at h
        exact ih _ _ _ h
      · rw [if_neg hf] at h
        simp only [Prod.mk.injEq, Option.some.injEq] at h
        obtain ⟨rfl, _⟩ := h
        exact ⟨List.getElem?_mem hk, by simpa using hf⟩

theorem scanNext_complete (keys : List String) (failed : List (String × Int)) :
    ∀ fuel idx, idx < keys.length →
      (∃ j, j < fuel ∧ ∃ k, keys[(idx + j) % keys.length]? = some k ∧ inFailed failed k = false) →
      ∃ k idx', scanNext keys failed fuel idx = (some k, idx') := by
  intro fuel
  induction fuel with
  | zero =>
    intro idx _ h
    obtain ⟨j, hj, _⟩ := h
    omega
  | succ n ih =>
    intro idx hidx h
    have hlen : 0 < keys.length := by omega
    have hmod : idx % keys.length = idx := Nat.mod_eq_of_lt hidx
    simp only [scanNext]
    cases hk : keys[idx]? with
    | none =>
      exfalso
      rw [List.getElem?_eq_none_iff] at hk
      omega
    | some k0 =>
      dsimp only
      by_cases hf : inFailed failed k0
      · rw [if_pos hf]
        apply ih ((idx + 1) % keys.length) (Nat.mod_lt _ hlen)
        obtain ⟨j, hj, k, hkk, hkf⟩ := h
        have hjne : j ≠ 0 := by
          intro h0
          subst h0
          rw [Nat.add_zero, hmod] at hkk
          rw [hk] at hkk
          cases hkk
          rw [hf] at hkf
          cases hkf
        refine ⟨j - 1, by omega, k, ?_, hkf⟩
        have heq : ((idx + 1) % keys.length + (j - 1)) % keys.length
            = (idx + j) % keys.length := by
          rw [Nat.mod_add_mod]
          rw [show (idx + 1) + (j - 1) = idx + j by omega]
        rw [heq]
        exact hkk
      · rw [if_neg hf]
        exact ⟨k0, _, rfl⟩

theorem scanNext_none (keys : List String) (failed : List (String × Int)) :
    ∀ fuel idx idx', idx < keys.length → scanNext keys failed fuel idx = (none, idx') →
      ∀ j, j < fuel → ∀ k, keys[(idx + j) % keys.length]? = some k → inFailed failed k = true := by
  intro fuel
  induction fuel with
  | zero => intro idx idx' _ _ j hj; omega
  | succ n ih =>
    intro idx idx' hidx h j hj k hk
    have hlen : 0 < keys.length := by omega
    have hmod : idx % keys.length = idx := Nat.mod_eq_of_lt hidx
    simp only [scanNext] at h
    cases hk0 : keys[idx]? with
    | none =>
      exfalso
      rw [List.getElem?_eq_none_iff] at hk0
      omega
    | some k0 =>
      rw [hk0] at h
      dsimp only at h
      by_cases hf : inFailed failed k0
      · rw [if_pos hf] at h
        rcases Nat.eq_zero_or_pos j with hj0 | hjpos
        · subst hj0
          rw [Nat.add_zero, hmod, hk0] at hk
          cases hk
          exact hf
        · refine ih ((idx + 1) % keys.length) idx' (Nat.mod_lt _ hlen) h (j - 1) (by omega) k ?_
          have heq : ((idx + 1) % keys.length + (j - 1)) % keys.length
              = (idx + j) % keys.length := by
            rw [Nat.mod_add_mod]
            rw [show (idx + 1) + (j - 1) = idx + j by omega]
          rw [heq]
          exact hk
      · rw [if_neg hf] at h
        simp at h

theorem evict_api_keys (st : KMState) (now : Int) :
    (evictExpired st now).api_keys = st.api_keys := rfl

theorem evict_current_index (st : KMState) (now : Int) :
    (evictExpired st now).current_index = st.current_index := rfl

/-- For any index `m < keys.length` there is a scan offset `j < keys.length`
reaching it from the cursor `idx`. -/
theorem scan_offset_reaches (n idx m : Nat) (hidx : idx < n) (hm : m < n) :
    ∃ j, j < n ∧ (idx + j) % n = m := by
  refine ⟨(m + n - idx) % n, Nat.mod_lt _ (by omega), ?_⟩
  have h1 : (idx + (m + n - idx) % n) % n = (idx + (m + n - idx)) % n := by
    conv_lhs => rw [Nat.add_mod]
    rw [Nat.mod_mod_of_dvd _ dvd_rfl, ← Nat.add_mod]
  rw [h1, show idx + (m + n - idx) = m + n by omega, Nat.add_mod_right, Nat.mod_eq_of_lt hm]

/--
C4.  For a key manager whose cursor is in range (the constructor establishes
this and `get_next_key` preserves it), after the lazy eviction performed by
`get_next_key`:
1. a returned key is one of the pool and is not in the post-eviction cooldown
   set — in particular its recorded failure (if any) is older than the
   cooldown period, so a key whose cooldown has not elapsed is never returned;
2. whenever some key of the pool is available, a key is returned;
3. `None` is returned exactly when every key of the pool is in cooldown.
-/
theorem getNextKey_round_robin_spec (st : KMState) (now : Int)
    (hidx : st.current_index < st.api_keys.length) :
    (∀ k, (getNextKey st now).1 = some k →
        k ∈ st.api_keys ∧ inFailed (evictExpired st now).failed_keys k = false ∧
        ∀ t, (k, t) ∈ st.failed_keys → now - t > st.cooldown_period) ∧
    ((∃ k ∈ st.api_keys, inFailed (evictExpired st now).failed_keys k = false) →
        ∃ k, (getNextKey st now).1 = some k) ∧
    ((getNextKey st now).1 = none ↔
        ∀ k ∈ st.api_keys, inFailed (evictExpired st now).failed_keys k = true) := by
  have hfst : (getNextKey st now).1 = (scanNext st.api_keys (evictExpired st now).failed_keys
      st.api_keys.length st.current_index).1 := by
    rcases hsc : scanNext st.api_keys (evictExpired st now).failed_keys
        st.api_keys.length st.current_index with ⟨res, idx'⟩
    simp only [getNextKey, evict_api_keys, evict_current_index, hsc]
  refine ⟨?_, ?_, ?_⟩
  · intro k hk
    rw [hfst] at hk
    rcases hsc : scanNext st.api_keys (evictExpired st now).failed_keys
        st.api_keys.length st.current_index with ⟨res, idx'⟩
    rw [hsc] at hk
    simp only at hk
    subst hk
    obtain ⟨hmem, hfree⟩ := scanNext_sound _ _ _ _ _ _ hsc
    refine ⟨hmem, hfree, ?_⟩
    intro t ht
    by_contra hle
    push_neg at hle
    -- a still-cooling entry for k would survive eviction, contradicting hfree
    have hsurv : (k, t) ∈ (evictExpired st now).failed_keys := by
      simp only [evictExpired, List.mem_filter]
      refine ⟨ht, ?_⟩
      simp only [Bool.not_eq_true', decide_eq_false_iff_not]
      omega
    have : inFailed (evictExpired st now).failed_keys k = true := by
      simp only [inFailed, List.any_eq_true]
      exact ⟨(k, t), hsurv, by simp⟩
    rw [this] at hfree
    cases hfree
  · rintro ⟨k, hmem, hfree⟩
    obtain ⟨m, hm, hkm⟩ := List.mem_iff_getElem.mp hmem
    obtain ⟨j, hj, hjm⟩ := scan_offset_reaches st.api_keys.length st.current_index m hidx hm
    have hcomp := scanNext_complete st.api_keys (evictExpired st now).failed_keys
      st.api_keys.length st.current_index hidx
      ⟨j, hj, k, by rw [hjm]; rw [List.getElem?_eq_getElem hm, hkm], hfree⟩
    obtain ⟨k', idx', hsc⟩ := hcomp
    refine ⟨k', ?_⟩
    rw [hfst, hsc]
  · constructor
    · intro hnone k hmem
      rw [hfst] at hnone
      rcases hsc : scanNext st.api_keys (evictExpired st now).failed_keys
          st.api_keys.length st.current_index with ⟨res, idx'⟩
      rw [hsc] at hnone
      simp only at hnone
      subst hnone
      obtain ⟨m, hm, hkm⟩ := List.mem_iff_getElem.mp hmem
      obtain ⟨j, hj, hjm⟩ := scan_offset_reaches st.api_keys.length st.current_index m hidx hm
      exact scanNext_none _ _ _ _ _ hidx hsc j hj k
        (by rw [hjm]; rw [List.getElem?_eq_getElem hm, hkm])
    · intro hall
      cases hres : (getNextKey st now).1 with
      | none => rfl
      | some k =>
        exfalso
        rw [hfst] at hres
        rcases hsc : scanNext st.api_keys (evictExpired st now).failed_keys
            st.api_keys.length st.current_index with ⟨res, idx'⟩
        rw [hsc] at hres
        simp only at hres
        subst hres
        obtain ⟨hmem, hfree⟩ := scanNext_sound _ _ _ _ _ _ hsc
        rw [hall k hmem] at hfree
        cases hfree

/-- Witness for C4: three keys, one of which failed recently (within the
cooldown period). -/
theorem getNextKey_round_robin_spec_witness :
    (∀ k, (getNextKey ⟨["a", "b", "c"], 300, 0, [("b", 100)]⟩ 200).1 = some k →
        k ∈ ["a", "b", "c"] ∧
        inFailed (evictExpired ⟨["a", "b", "c"], 300, 0, [("b", 100)]⟩ 200).failed_keys k = false ∧
        ∀ t, (k, t) ∈ [("b", (100 : Int))] → 200 - t > 300) ∧
    ((∃ k ∈ ["a", "b", "c"],
        inFailed (evictExpired ⟨["a", "b", "c"], 300, 0, [("b", 100)]⟩ 200).failed_keys k = false) →
        ∃ k, (getNextKey ⟨["a", "b", "c"], 300, 0, [("b", 100)]⟩ 200).1 = some k) ∧
    ((getNextKey ⟨["a", "b", "c"], 300, 0, [("b", 100)]⟩ 200).1 = none ↔
        ∀ k ∈ ["a", "b", "c"],
          inFailed (evictExpired ⟨["a", "b", "c"], 300, 0, [("b", 100)]⟩ 200).failed_keys k = true) :=
  getNextKey_round_robin_spec ⟨["a", "b", "c"], 300, 0, [("b", 100)]⟩ 200 (by decide)

/--
C10.  A key manager constructed with an empty credential list returns `None`
from `get_next_key` without error: the scan loop bound `len(self.api_keys)`
is zero, so the indexing (and the modulus by the list length) in the loop body
is never reached.
-/
theorem getNextKey_empty_pool (cooldown now : Int) :
    (getNextKey (initKM [] cooldown) now).1 = none := rfl

/-! ## Python-style rendering helpers

`json.dumps(..., ensure_ascii=False)` and `str(...)` on JSON-like values.
The exact character-level output of these renderers is irrelevant to every
claim below (both sides of each theorem go through the same function); they
are implemented as straightforward total serializers, so the `except:`
fallbacks in `parse_tool_result_content` (which only fire when serialization
raises) are unreachable in the model. -/

def jsonEscape (s : String) : String :=
  s.data.foldl (fun acc c =>
    acc ++ (if c = Char.ofNat 92 then "\\\\"
            else if c = Char.ofNat 34 then "\\\""
            else String.singleton c)) ""

def squote : String := String.singleton (Char.ofNat 39)

mutual

def dumps : JVal → String
  | .null => "null"
  | .bool true => "true"
  | .bool false => "false"
  | .num n => toString n
  | .str s => "\"" ++ jsonEscape s ++ "\""
  | .arr items => "[" ++ dumpsList items ++ "]"
  | .obj fields => "\x7b" ++ dumpsObj fields ++ "\x7d"

def dumpsList : List JVal → String
  | [] => ""
  | [v] => dumps v
  | v :: rest => dumps v ++ ", " ++ dumpsList rest

def dumpsObj : List (String × JVal) → String
  | [] => ""
  | [(k, v)] => "\"" ++ jsonEscape k ++ "\": " ++ dumps v
  | (k, v) :: rest => "\"" ++ jsonEscape k ++ "\": " ++ dumps v ++ ", " ++ dumpsObj rest

end

mutual

def pyRepr : JVal → String
  | .null => "None"
  | .bool true => "True"
  | .bool false => "False"
  | .num n => toString n
  | .str s => squote ++ s ++ squote
  | .arr items => "[" ++ pyReprList items ++ "]"
  | .obj fields => "\x7b" ++ pyReprObj fields ++ "\x7d"

def pyReprList : List JVal → String
  | [] => ""
  | [v] => pyRepr v
  | v :: rest => pyRepr v ++ ", " ++ pyReprList rest

def pyReprObj : List (String × JVal) → String
  | [] => ""
  | [(k, v)] => squote ++ k ++ squote ++ ": " ++ pyRepr v
  | (k, v) :: rest => squote ++ k ++ squote ++ ": " ++ pyRepr v ++ ", " ++ pyReprObj rest

end

/-- Python `str(value)` for JSON-like values (strings render bare, everything
else as its repr). -/
def pyStr : JVal → String
  | .str s => s
  | v => pyRepr v

/-- Fetch a field expected to be a string; a non-string value is rendered with
`pyStr` (Python would pass the raw value through — the rendering stands in for
it, and no claim below depends on this corner). -/
def getStrField (fields : List (String × JVal)) (k : String) : String :=
  match jlookup fields k with
  | some (.str s) => s
  | some v => pyStr v
  | none => ""

/-! ## Claude-side request data model

Modelled from the spec: the pydantic request models (`src/models/claude.py`)
are not part of the provided sources; §3 of the spec fixes the shapes
(`ContentBlock` variants `Text`, `Image`, `ToolUse`, `ToolResult`; `Message`
with string-or-block content; the `Request` fields), and the attribute names
are those the converter code reads (`type`, `text`, `source`, `id`, `name`,
`input`, `tool_use_id`, `content`).  `temperature` is a float passed through
verbatim by the converter and is omitted from the model (no claim concerns
it). -/

inductive ClaudeBlock where
  | text (text : String)
  | image (source : List (String × JVal))
  | toolUse (id : String) (name : String) (input : JVal)
  | toolResult (tool_use_id : String) (content : JVal)

inductive ClaudeContent where
  | str (s : String)
  | blocks (bs : List ClaudeBlock)

structure ClaudeMessage where
  role : String
  content : ClaudeContent

/-- An entry of a list-valued `system` field: either a typed pydantic block
(attribute access) or a raw dict. -/
inductive SysEntry where
  | typed (type : String) (text : String)
  | dict (fields : List (String × JVal))

inductive SystemField where
  | str (s : String)
  | list (entries : List SysEntry)

structure ClaudeToolDef where
  name : String
  description : Option String
  input_schema : JVal

structure ClaudeRequest where
  model : String
  messages : List ClaudeMessage
  system : Option SystemField
  max_tokens : Int
  stop_sequences : List String
  top_p : Option Int
  tools : List ClaudeToolDef
  tool_choice : Option (List (String × JVal))
  stream : Bool

/-! ## OpenAI-side request value (the converter's output shape) -/

/-- One element of a structured `content` array.  `cache_control` records
whether `cache_control: {"type": "ephemeral"}` is attached (the code only ever
attaches it to text-typed elements). -/
inductive OPart where
  | text (text : String) (cache_control : Bool)
  | imageUrl (url : String)
deriving DecidableEq, Repr

inductive OMContent where
  | str (s : String)
  | parts (l : List OPart)
  | null
deriving DecidableEq, Repr

/-- A target-side tool call entry; its `type` field is always `"function"`. -/
structure OToolCall where
  id : String
  name : String
  arguments : String
deriving DecidableEq, Repr

structure OpenAIMessage where
  role : String
  content : OMContent
  tool_call_id : Option String
  tool_calls : Option (List OToolCall)
deriving DecidableEq, Repr

structure OToolDef where
  name : String
  description : String
  parameters : JVal

inductive OToolChoice where
  | auto
  | named (name : String)
deriving DecidableEq, Repr

/-- The collaborator config interface: `{supports_prompt_cache, max_tokens_limit,
min_tokens_limit}` (spec §6), consumed as already-parsed values. -/
structure ProxyConfig where
  supports_prompt_cache : Bool
  min_tokens_limit : Int
  max_tokens_limit : Int

structure OpenAIRequest where
  model : String
  messages : List OpenAIMessage
  max_tokens : Int
  stream : Bool
  stop : Option (List String)
  top_p : Option Int
  tools : Option (List OToolDef)
  tool_choice : Option OToolChoice

/-! ## Request Converter (src/conversion/request_converter.py) -/

/-- One element of `parse_tool_result_content`'s list loop. -/
def parseToolResultItem : JVal → String
  | .obj fields =>
    match jlookup fields "type" with
    | some (.str "text") => getStrField fields "text"
    | some (.str "image") => "(see following user message for image)"
    | _ =>
      if fields.any (fun p => p.1 == "text") then getStrField fields "text"
      else dumps (.obj fields)
  | .str s => s
  | v => pyStr v

/-- `parse_tool_result_content`: normalize tool result content to a string.
(`filter(None, parts)` drops empty strings before the newline join.) -/
def parse_tool_result_content : JVal → String
  | .null => ""
  | .str s => s
  | .arr parts =>
    String.intercalate "\n" ((parts.map parseToolResultItem).filter (fun s => s ≠ ""))
  | .obj fields =>
    match jlookup fields "type" with
    | some (.str "text") => getStrField fields "text"
    | _ => dumps (.obj fields)
  | v => pyStr v

/-- The body of `_convert_content_blocks_to_openai`'s loop for one block:
text becomes a text element; an image becomes an `image_url` element only when
its source is a well-shaped base64 dict, and is silently dropped otherwise;
any other block type is dropped. -/
def convertBlockToOPart : ClaudeBlock → Option OPart
  | .text t => some (.text t false)
  | .image source =>
    let isB64 := match jlookup source "type" with
      | some (.str s) => s == "base64"
      | _ => false
    if isB64 && source.any (fun p => p.1 == "media_type")
        && source.any (fun p => p.1 == "data") then
      some (.imageUrl ("data:" ++ getStrField source "media_type" ++ ";base64,"
        ++ getStrField source "data"))
    else none
  | _ => none

/-- `_convert_content_blocks_to_openai`: empty input yields `""`; a single
resulting text element collapses to a bare string. -/
def convert_content_blocks_to_openai (blocks : List ClaudeBlock) : OMContent :=
  if blocks.isEmpty then .str ""
  else
    match blocks.filterMap convertBlockToOPart with
    | [OPart.text t _] => .str t
    | l => .parts l

/-- The user-branch partition loop: tool results to one list, text/image to
the other, anything else dropped; relative order inside each list preserved.
The first component is `non_tool_messages`, the second `tool_messages`. -/
def splitUserBlocks (bs : List ClaudeBlock) : List ClaudeBlock × List ClaudeBlock :=
  bs.foldl (fun acc part =>
    match part with
    | .toolResult _ _ => (acc.1, acc.2 ++ [part])
    | .text _ => (acc.1 ++ [part], acc.2)
    | .image _ => (acc.1 ++ [part], acc.2)
    | .toolUse _ _ _ => acc) ([], [])

/-- The assistant-branch partition loop: tool uses to one list, text/image to
the other, anything else dropped.  The first component is
`non_tool_messages`, the second `tool_messages`. -/
def splitAssistantBlocks (bs : List ClaudeBlock) : List ClaudeBlock × List ClaudeBlock :=
  bs.foldl (fun acc part =>
    match part with
    | .toolUse _ _ _ => (acc.1, acc.2 ++ [part])
    | .text _ => (acc.1 ++ [part], acc.2)
    | .image _ => (acc.1 ++ [part], acc.2)
    | .toolResult _ _ => acc) ([], [])

/-- The target message emitted for one ToolResult block (`role "tool"`,
`tool_call_id = tool_use_id`, normalized content).  Total for convenience; it
is only applied to ToolResult blocks. -/
def toolResultMsg : ClaudeBlock → OpenAIMessage
  | .toolResult tid c => ⟨"tool", .str (parse_tool_result_content c), some tid, none⟩
  | _ => ⟨"tool", .str "", none, none⟩

/-- The per-message conversion loop body of `convert_claude_to_openai`:
string content passes through; a user block message becomes tool messages
followed by at most one user message; an assistant block message becomes one
assistant message with concatenated text and optional non-empty `tool_calls`;
block content under any other role appends nothing. -/
def convertMessage (m : ClaudeMessage) : List OpenAIMessage :=
  match m.content with
  | .str s => [⟨m.role, .str s, none, none⟩]
  | .blocks bs =>
    if m.role == "user" then
      let split := splitUserBlocks bs
      split.2.map toolResultMsg ++
        (if split.1.isEmpty then []
         else [⟨"user", convert_content_blocks_to_openai split.1, none, none⟩])
    else if m.role == "assistant" then
      let split := splitAssistantBlocks bs
      let content : OMContent :=
        if split.1.isEmpty then .null
        else
          let content_parts := split.1.filterMap (fun b => match b with
            | .text t => some t
            | _ => none)
          if content_parts.isEmpty then .null else .str (String.join content_parts)
      let tool_calls := split.2.map (fun b => match b with
        | .toolUse tid tname tinput => OToolCall.mk tid tname (dumps tinput)
        | _ => OToolCall.mk "" "" "")
      [⟨"assistant", content, none, if tool_calls.isEmpty then none else some tool_calls⟩]
    else []

/-- Truthiness of the `system` field (`if claude_request.system:`). -/
def sysTruthy : SystemField → Bool
  | .str s => s ≠ ""
  | .list l => !l.isEmpty

/-- Collect `system_text` from a string or a list of text blocks (typed or
dict-shaped), joined by a blank line. -/
def systemText : SystemField → String
  | .str s => s
  | .list entries =>
    String.intercalate "\n\n" (entries.filterMap (fun e => match e with
      | .typed t txt => if t == "text" then some txt else none
      | .dict fields =>
        match jlookup fields "type" with
        | some (.str "text") => some (getStrField fields "text")
        | _ => none))

/-- The system message prepended by `convert_claude_to_openai` (empty list if
none): with the cache feature enabled its content is wrapped as a one-element
text array carrying the cache marker. -/
def systemMessages (sys : Option SystemField) (cacheFlag : Bool) : List OpenAIMessage :=
  match sys with
  | none => []
  | some sf =>
    if sysTruthy sf then
      let t := (systemText sf).trim
      if t ≠ "" then
        if cacheFlag then [⟨"system", .parts [.text t true], none, none⟩]
        else [⟨"system", .str t, none, none⟩]
      else []
    else []

def isTextOPart : OPart → Bool
  | .text _ _ => true
  | _ => false

def markOPart : OPart → OPart
  | .text t _ => .text t true
  | p => p

/-- Mark the first text element of a reversed part list (that is, the LAST
text element of the original order, exactly the element
`text_parts[-1]` that the code mutates). -/
def markLastTextRev : List OPart → List OPart
  | [] => []
  | p :: rest => if isTextOPart p then markOPart p :: rest else p :: markLastTextRev rest

/-- The per-message body of the last-two-user-messages cache loop, acting on
an already-array-shaped content: attach the marker to the last text element,
appending a `"..."` text element if none exists. -/
def addCacheToParts (l : List OPart) : List OPart :=
  if (l.filter isTextOPart).isEmpty then l ++ [.text "..." true]
  else (markLastTextRev l.reverse).reverse

/-- The full per-message cache mutation: bare-string content is first
converted to a one-element text array.  (Non-user messages are never passed
here; content `null` cannot occur for a user message and is left unchanged.) -/
def addCacheControl (m : OpenAIMessage) : OpenAIMessage :=
  match m.content with
  | .str s => { m with content := .parts (addCacheToParts [.text s false]) }
  | .parts l => { m with content := .parts (addCacheToParts l) }
  | .null => m

def userCount (msgs : List OpenAIMessage) : Nat :=
  msgs.countP (fun m => m.role == "user")

/-- Positional rendering of the in-place mutation of
`user_messages[-2:]` (or all of them when fewer than two): walking the list,
the user messages whose user-ordinal is at least `start` are mutated. -/
def cachePassGo (start : Nat) : Nat → List OpenAIMessage → List OpenAIMessage
  | _, [] => []
  | u, m :: rest =>
    if m.role == "user" then
      (if start ≤ u then addCacheControl m else m) :: cachePassGo start (u + 1) rest
    else m :: cachePassGo start u rest

/-- The whole last-two-user-messages cache pass. -/
def applyCachePass (msgs : List OpenAIMessage) : List OpenAIMessage :=
  let n := userCount msgs
  cachePassGo (n - min n 2) 0 msgs

/-- Tools conversion: keep only tools with a non-blank name; omit the field
entirely when nothing remains (`tools` key absent ⇔ `none`). -/
def convertTools (tools : List ClaudeToolDef) : Option (List OToolDef) :=
  if tools.isEmpty then none
  else
    let openai_tools := tools.filterMap (fun t =>
      if t.name ≠ "" && t.name.trim ≠ "" then
        some (OToolDef.mk t.name (t.description.getD "") t.input_schema)
      else none)
    if openai_tools.isEmpty then none else some openai_tools

/-- `tool_choice` conversion (`"auto"`/`"any"`/fallback map to `"auto"`;
`{"type":"tool","name":X}` maps to the named function choice).  An absent or
falsy (empty) dict omits the field. -/
def convertToolChoice (tc : Option (List (String × JVal))) : Option OToolChoice :=
  match tc with
  | none => none
  | some fields =>
    if fields.isEmpty then none
    else
      match jlookup fields "type" with
      | some (.str "auto") => some .auto
      | some (.str "any") => some .auto
      | some (.str "tool") =>
        if fields.any (fun p => p.1 == "name") then some (.named (getStrField fields "name"))
        else some .auto
      | _ => some .auto

/-- `convert_claude_to_openai`: the full request conversion.  `model_manager`
is the opaque model-mapping collaborator, `cfg` the config collaborator. -/
def convert_claude_to_openai (req : ClaudeRequest) (mapModel : String → String)
    (cfg : ProxyConfig) : OpenAIRequest :=
  let msgs := req.messages.foldl (fun acc m => acc ++ convertMessage m) []
  let msgs := systemMessages req.system cfg.supports_prompt_cache ++ msgs
  let msgs := if cfg.supports_prompt_cache then applyCachePass msgs else msgs
  { model := mapModel req.model
    messages := msgs
    max_tokens := min (max req.max_tokens cfg.min_tokens_limit) cfg.max_tokens_limit
    stream := req.stream
    stop := if req.stop_sequences.isEmpty then none else some req.stop_sequences
    top_p := req.top_p
    tools := convertTools req.tools
    tool_choice := convertToolChoice req.tool_choice }

/-! ### C6: tool results are emitted before the plain user content -/

def isToolResultBlock : ClaudeBlock → Bool
  | .toolResult _ _ => true
  | _ => false

def isTextImageBlock : ClaudeBlock → Bool
  | .text _ => true
  | .image _ => true
  | _ => false

theorem splitUserBlocks_eq_filter (bs : List ClaudeBlock) :
    splitUserBlocks bs = (bs.filter isTextImageBlock, bs.filter isToolResultBlock) := by
  have key : ∀ (l : List ClaudeBlock) (acc : List ClaudeBlock × List ClaudeBlock),
      l.foldl (fun acc part =>
        match part with
        | .toolResult _ _ => (acc.1, acc.2 ++ [part])
        | .text _ => (acc.1 ++ [part], acc.2)
        | .image _ => (acc.1 ++ [part], acc.2)
        | .toolUse _ _ _ => acc) acc
      = (acc.1 ++ l.filter isTextImageBlock, acc.2 ++ l.filter isToolResultBlock) := by
    intro l
    induction l with
    | nil => intro acc; simp
    | cons b rest ih =>
      intro acc
      cases b with
      | text t =>
        simp only [List.foldl_cons, ih, List.filter_cons]
        simp [isTextImageBlock, isToolResultBlock]
      | image s =>
        simp only [List.foldl_cons, ih, List.filter_cons]
        simp [isTextImageBlock, isToolResultBlock]
      | toolUse a b c =>
        simp only [List.foldl_cons, ih, List.filter_cons]
        simp [isTextImageBlock, isToolResultBlock]
      | toolResult a c =>
        simp only [List.foldl_cons, ih, List.filter_cons]
        simp [isTextImageBlock, isToolResultBlock]
  simpa using key bs ([], [])

/--
C6.  A user message whose block content mixes ToolResult blocks with
Text/Image blocks converts to: one `role "tool"` message per ToolResult (in
block order, with `tool_call_id` the block's `tool_use_id` and the normalized
result content), all strictly before the single user message built from the
remaining Text/Image blocks — regardless of the original interleaving.
-/
theorem user_tool_results_emitted_first (bs : List ClaudeBlock)
    (hTI : bs.filter isTextImageBlock ≠ []) :
    convertMessage ⟨"user", .blocks bs⟩ =
      (bs.filter isToolResultBlock).map toolResultMsg ++
        [⟨"user", convert_content_blocks_to_openai (bs.filter isTextImageBlock), none, none⟩] ∧
    (∀ tid c, toolResultMsg (.toolResult tid c) =
      ⟨"tool", .str (parse_tool_result_content c), some tid, none⟩) ∧
    (∀ m ∈ (bs.filter isToolResultBlock).map toolResultMsg, m.role = "tool") := by
  refine ⟨?_, fun tid c => rfl, ?_⟩
  · have hstep : convertMessage ⟨"user", .blocks bs⟩ =
        (splitUserBlocks bs).2.map toolResultMsg ++
          (if (splitUserBlocks bs).1.isEmpty then []
           else [⟨"user", convert_content_blocks_to_openai (splitUserBlocks bs).1, none, none⟩]) := rfl
    rw [hstep, splitUserBlocks_eq_filter]
    simp only
    rw [if_neg]
    intro hcontra
    exact hTI (List.isEmpty_iff.mp hcontra)
  · intro m hm
    obtain ⟨b, hb, rfl⟩ := List.mem_map.mp hm
    have hTR : isToolResultBlock b = true := List.of_mem_filter hb
    cases b with
    | toolResult tid c => rfl
    | text t => simp [isToolResultBlock] at hTR
    | image s => simp [isToolResultBlock] at hTR
    | toolUse a b c => simp [isToolResultBlock] at hTR

/-- Witness for C6: the source message lists the text block BEFORE the tool
result, yet the converted sequence puts the tool message first. -/
theorem user_tool_results_emitted_first_witness :
    convertMessage ⟨"user", .blocks [.text "A", .toolResult "t1" (.str "ok")]⟩ =
      ([ClaudeBlock.text "A", .toolResult "t1" (.str "ok")].filter isToolResultBlock).map toolResultMsg ++
        [⟨"user", convert_content_blocks_to_openai
            ([ClaudeBlock.text "A", .toolResult "t1" (.str "ok")].filter isTextImageBlock),
          none, none⟩] ∧
    (∀ tid c, toolResultMsg (.toolResult tid c) =
      ⟨"tool", .str (parse_tool_result_content c), some tid, none⟩) ∧
    (∀ m ∈ (([ClaudeBlock.text "A", .toolResult "t1" (.str "ok")].filter
        isToolResultBlock).map toolResultMsg), m.role = "tool") :=
  user_tool_results_emitted_first [.text "A", .toolResult "t1" (.str "ok")]
    (List.cons_ne_nil _ _)

/-! ### C8: max_tokens clamping -/

/--
C8.  The converted `max_tokens` equals `min(max(requested, min_limit),
max_limit)` and (for a config with `min_limit ≤ max_limit`) always lies inside
`[min_limit, max_limit]`, including when the requested value is below the
minimum or above the maximum.
-/
theorem max_tokens_clamped (req : ClaudeRequest) (mapModel : String → String)
    (cfg : ProxyConfig) (h : cfg.min_tokens_limit ≤ cfg.max_tokens_limit) :
    (convert_claude_to_openai req mapModel cfg).max_tokens
        = min (max req.max_tokens cfg.min_tokens_limit) cfg.max_tokens_limit ∧
    cfg.min_tokens_limit ≤ (convert_claude_to_openai req mapModel cfg).max_tokens ∧
    (convert_claude_to_openai req mapModel cfg).max_tokens ≤ cfg.max_tokens_limit := by
  have heq : (convert_claude_to_openai req mapModel cfg).max_tokens
      = min (max req.max_tokens cfg.min_tokens_limit) cfg.max_tokens_limit := rfl
  refine ⟨heq, ?_, ?_⟩
  · rw [heq]
    exact le_min (le_max_right _ _) h
  · rw [heq]
    exact min_le_right _ _

/-- Witness for C8: a request asking for fewer tokens than the configured
minimum is clamped up to the minimum. -/
theorem max_tokens_clamped_witness :
    (convert_claude_to_openai ⟨"m", [], none, 50, [], none, [], none, false⟩ id
        ⟨false, 100, 4096⟩).max_tokens = min (max 50 100) 4096 ∧
    (100 : Int) ≤ (convert_claude_to_openai ⟨"m", [], none, 50, [], none, [], none, false⟩ id
        ⟨false, 100, 4096⟩).max_tokens ∧
    (convert_claude_to_openai ⟨"m", [], none, 50, [], none, [], none, false⟩ id
        ⟨false, 100, 4096⟩).max_tokens ≤ 4096 :=
  max_tokens_clamped ⟨"m", [], none, 50, [], none, [], none, false⟩ id ⟨false, 100, 4096⟩ (by decide)

/-! ### C7: cache markers on the last two user messages -/

def opartMarked : OPart → Bool
  | .text _ c => c
  | .imageUrl _ => false

/-- A message carries a cache marker somewhere in its content. -/
def hasCacheMarker (m : OpenAIMessage) : Bool :=
  match m.content with
  | .parts l => l.any opartMarked
  | _ => false

/-- All content elements are unmarked (bare strings and null trivially so). -/
def contentUnmarked : OMContent → Bool
  | .parts l => l.all (fun p => !opartMarked p)
  | _ => true

/-- Checker, on a REVERSED part list, that the marker sits exactly on the
final text-typed element of the original order: scanning from the back, the
elements before the first text element are unmarked, that text element is
marked, and everything before it (in original order) is unmarked. -/
def revCheck : List OPart → Bool
  | [] => false
  | p :: rest =>
    if isTextOPart p then opartMarked p && rest.all (fun q => !opartMarked q)
    else !opartMarked p && revCheck rest

/-- The marker sits exactly on the final text-typed content element. -/
def markedOnFinalTextOnly (m : OpenAIMessage) : Bool :=
  match m.content with
  | .parts l => revCheck l.reverse
  | _ => false

/-- A user message as built by the converter: non-null content, no marker. -/
def userContentOK (m : OpenAIMessage) : Bool :=
  (match m.content with
   | .null => false
   | _ => true) && contentUnmarked m.content

/-- Ordinal-indexed rendering of the cache pass restricted to the user
messages (the messages actually mutated). -/
def markFromOrd (start : Nat) : Nat → List OpenAIMessage → List OpenAIMessage
  | _, [] => []
  | u, m :: rest => (if start ≤ u then addCacheControl m else m) :: markFromOrd start (u + 1) rest

theorem addCacheControl_role (m : OpenAIMessage) : (addCacheControl m).role = m.role := by
  cases m with
  | mk role content tci tcs => cases content <;> rfl

theorem markOPart_isText (p : OPart) (h : isTextOPart p = true) :
    isTextOPart (markOPart p) = true ∧ opartMarked (markOPart p) = true := by
  cases p with
  | text t c => exact ⟨rfl, rfl⟩
  | imageUrl u => simp [isTextOPart] at h

theorem revCheck_markLastTextRev (l : List OPart)
    (hun : l.all (fun p => !opartMarked p) = true) (htext : l.any isTextOPart = true) :
    revCheck (markLastTextRev l) = true := by
  induction l with
  | nil => simp at htext
  | cons p rest ih =>
    simp only [List.all_cons, Bool.and_eq_true] at hun
    simp only [markLastTextRev]
    by_cases hp : isTextOPart p = true
    · rw [if_pos hp]
      obtain ⟨h1, h2⟩ := markOPart_isText p hp
      simp only [revCheck, if_pos h1]
      rw [h2, Bool.true_and]
      exact hun.2
    · rw [if_neg hp]
      simp only [revCheck]
      rw [if_neg hp]
      simp only [List.any_cons, Bool.or_eq_true] at htext
      rcases htext with h | h
      · exact absurd h hp
      · rw [ih hun.2 h, Bool.and_true]
        simpa using hun.1

theorem markLastTextRev_any_marked (l : List OPart) (htext : l.any isTextOPart = true) :
    (markLastTextRev l).any opartMarked = true := by
  induction l with
  | nil => simp at htext
  | cons p rest ih =>
    simp only [markLastTextRev]
    by_cases hp : isTextOPart p = true
    · rw [if_pos hp]
      simp only [List.any_cons, Bool.or_eq_true]
      exact Or.inl (markOPart_isText p hp).2
    · rw [if_neg hp]
      simp only [List.any_cons, Bool.or_eq_true]
      simp only [List.any_cons, Bool.or_eq_true] at htext
      rcases htext with h | h
      · exact absurd h hp
      · exact Or.inr (ih h)

/-- Applying the per-message cache mutation to a well-formed (non-null,
unmarked) user message marks it, with the marker exactly on the final text
element, preserving the role. -/
theorem addCacheControl_marks (m : OpenAIMessage) (hok : userContentOK m = true) :
    hasCacheMarker (addCacheControl m) = true ∧
    markedOnFinalTextOnly (addCacheControl m) = true := by
  simp only [userContentOK, Bool.and_eq_true] at hok
  obtain ⟨hnn, hun⟩ := hok
  cases hm : m.content with
  | null => rw [hm] at hnn; simp at hnn
  | str s =>
    have h1 : addCacheControl m = { m with content := .parts (addCacheToParts [.text s false]) } := by
      unfold addCacheControl
      rw [hm]
    have h2 : addCacheToParts [.text s false] = [.text s true] := rfl
    rw [h1, h2]
    exact ⟨rfl, rfl⟩
  | parts l =>
    have h1 : addCacheControl m = { m with content := .parts (addCacheToParts l) } := by
      unfold addCacheControl
      rw [hm]
    rw [hm] at hun
    simp only [contentUnmarked] at hun
    rw [h1]
    unfold addCacheToParts
    by_cases hft : (l.filter isTextOPart).isEmpty = true
    · rw [if_pos hft]
      have hnotext : ∀ p ∈ l, isTextOPart p = false := by
        intro p hp
        by_contra hc
        have : p ∈ l.filter isTextOPart := List.mem_filter.mpr ⟨hp, by simpa using hc⟩
        rw [List.isEmpty_iff] at hft
        rw [hft] at this
        simp at this
      constructor
      · simp only [hasCacheMarker, List.any_append]
        simp [opartMarked]
      · simp only [markedOnFinalTextOnly, List.reverse_append]
        simp only [List.reverse_cons, List.reverse_nil, List.nil_append, List.singleton_append]
        have hrc : revCheck (OPart.text "..." true :: l.reverse)
            = (opartMarked (OPart.text "..." true) && l.reverse.all (fun q => !opartMarked q)) := rfl
        rw [hrc]
        have hmk : opartMarked (OPart.text "..." true) = true := rfl
        rw [hmk, Bool.true_and, List.all_reverse]
        simpa using hun
    · rw [if_neg hft]
      have htext : l.reverse.any isTextOPart = true := by
        rw [List.any_reverse]
        by_contra hc
        apply hft
        rw [List.isEmpty_iff, List.filter_eq_nil_iff]
        intro p hp
        simp only [List.any_eq_true, not_exists, not_and] at hc
        have := hc p hp
        simpa using this
      have hunr : l.reverse.all (fun p => !opartMarked p) = true := by
        rw [List.all_reverse]
        exact hun
      constructor
      · simp only [hasCacheMarker, List.any_reverse]
        exact markLastTextRev_any_marked _ htext
      · simp only [markedOnFinalTextOnly, List.reverse_reverse]
        exact revCheck_markLastTextRev _ hunr htext

def userMessagesOf (msgs : List OpenAIMessage) : List OpenAIMessage :=
  msgs.filter (fun m => m.role == "user")

theorem noMarker_of_unmarked (m : OpenAIMessage) (h : contentUnmarked m.content = true) :
    hasCacheMarker m = false := by
  cases hm : m.content with
  | str s => simp [hasCacheMarker, hm]
  | null => simp [hasCacheMarker, hm]
  | parts l =>
    rw [hm] at h
    simp only [contentUnmarked, List.all_eq_true] at h
    simp only [hasCacheMarker, hm]
    rw [List.any_eq_false]
    intro p hp
    have := h p hp
    simpa using this

theorem foldl_convert_eq_flatMap (l : List ClaudeMessage) :
    ∀ acc, l.foldl (fun acc m => acc ++ convertMessage m) acc = acc ++ l.flatMap convertMessage := by
  induction l with
  | nil => intro acc; simp
  | cons m rest ih =>
    intro acc
    simp only [List.foldl_cons, ih, List.flatMap_cons, List.append_assoc]

theorem cachePassGo_filter (start : Nat) :
    ∀ (msgs : List OpenAIMessage) (u : Nat),
      userMessagesOf (cachePassGo start u msgs) = markFromOrd start u (userMessagesOf msgs) := by
  intro msgs
  induction msgs with
  | nil => intro u; rfl
  | cons m rest ih =>
    intro u
    by_cases hrole : (m.role == "user") = true
    · have hrole' : ((if start ≤ u then addCacheControl m else m).role == "user") = true := by
        by_cases hle : start ≤ u
        · rw [if_pos hle, addCacheControl_role]; exact hrole
        · rw [if_neg hle]; exact hrole
      have hstep : cachePassGo start u (m :: rest)
          = (if start ≤ u then addCacheControl m else m) :: cachePassGo start (u + 1) rest := by
        simp only [cachePassGo, if_pos hrole]
      rw [hstep]
      have hfil : userMessagesOf ((if start ≤ u then addCacheControl m else m)
            :: cachePassGo start (u + 1) rest)
          = (if start ≤ u then addCacheControl m else m)
            :: userMessagesOf (cachePassGo start (u + 1) rest) :=
        List.filter_cons_of_pos hrole'
      rw [hfil, ih (u + 1)]
      have hfil2 : userMessagesOf (m :: rest) = m :: userMessagesOf rest :=
        List.filter_cons_of_pos hrole
      rw [hfil2]
      rfl
    · have hstep : cachePassGo start u (m :: rest) = m :: cachePassGo start u rest := by
        simp only [cachePassGo, if_neg hrole]
      rw [hstep]
      have hfil : userMessagesOf (m :: cachePassGo start u rest)
          = userMessagesOf (cachePassGo start u rest) :=
        List.filter_cons_of_neg hrole
      rw [hfil, ih u]
      have hfil2 : userMessagesOf (m :: rest) = userMessagesOf rest :=
        List.filter_cons_of_neg hrole
      rw [hfil2]

theorem markFromOrd_length (start : Nat) :
    ∀ (us : List OpenAIMessage) (u : Nat), (markFromOrd start u us).length = us.length := by
  intro us
  induction us with
  | nil => intro u; rfl
  | cons m rest ih => intro u; simp [markFromOrd, ih]

theorem markFromOrd_getElem? (start : Nat) :
    ∀ (us : List OpenAIMessage) (u i : Nat),
      (markFromOrd start u us)[i]?
        = (us[i]?).map (fun m => if start ≤ u + i then addCacheControl m else m) := by
  intro us
  induction us with
  | nil => intro u i; rfl
  | cons m rest ih =>
    intro u i
    cases i with
    | zero => simp [markFromOrd]
    | succ j =>
      simp only [markFromOrd, List.getElem?_cons_succ, ih (u + 1) j]
      have : u + 1 + j = u + (j + 1) := by omega
      rw [this]

theorem markFromOrd_countP (start : Nat) :
    ∀ (us : List OpenAIMessage) (u : Nat), (∀ m ∈ us, userContentOK m = true) →
      (markFromOrd start u us).countP hasCacheMarker = us.length - (start - u) := by
  intro us
  induction us with
  | nil =>
    intro u _
    simp only [markFromOrd, List.countP_nil, List.length_nil]
    omega
  | cons m rest ih =>
    intro u hok
    have hm := hok m (List.mem_cons_self m rest)
    have hrest : ∀ x ∈ rest, userContentOK x = true := fun x hx => hok x (List.mem_cons_of_mem _ hx)
    have hstep : markFromOrd start u (m :: rest)
        = (if start ≤ u then addCacheControl m else m) :: markFromOrd start (u + 1) rest := rfl
    rw [hstep]
    by_cases hle : start ≤ u
    · rw [if_pos hle]
      rw [List.countP_cons_of_pos _ _ (by exact (addCacheControl_marks m hm).1)]
      rw [ih (u + 1) hrest]
      simp only [List.length_cons]
      omega
    · rw [if_neg hle]
      have hunm : hasCacheMarker m = false := by
        apply noMarker_of_unmarked
        simp only [userContentOK, Bool.and_eq_true] at hm
        exact hm.2
      rw [List.countP_cons_of_neg _ _ (by rw [hunm]; exact Bool.false_ne_true)]
      rw [ih (u + 1) hrest]
      simp only [List.length_cons]
      omega

theorem convertBlockToOPart_unmarked (b : ClaudeBlock) (p : OPart)
    (h : convertBlockToOPart b = some p) : opartMarked p = false := by
  cases b with
  | text t =>
    simp only [convertBlockToOPart, Option.some.injEq] at h
    rw [← h]
    rfl
  | image src =>
    simp only [convertBlockToOPart] at h
    split at h
    · simp only [Option.some.injEq] at h
      rw [← h]
      rfl
    · cases h
  | toolUse a b c => cases h
  | toolResult a c => cases h

/-- Content built by `_convert_content_blocks_to_openai` is never null and
carries no cache marker. -/
theorem convert_blocks_contentOK (bs : List ClaudeBlock) :
    userContentOK ⟨"user", convert_content_blocks_to_openai bs, none, none⟩ = true := by
  have hall : ∀ p ∈ bs.filterMap convertBlockToOPart, opartMarked p = false := by
    intro p hp
    obtain ⟨b, _, hb⟩ := List.mem_filterMap.mp hp
    exact convertBlockToOPart_unmarked b p hb
  unfold convert_content_blocks_to_openai
  by_cases hbs : bs.isEmpty = true
  · rw [if_pos hbs]
    rfl
  · rw [if_neg hbs]
    rcases hL : bs.filterMap convertBlockToOPart with _ | ⟨p, rest⟩
    · rfl
    · rcases rest with _ | ⟨q, rest2⟩
      · cases p with
        | text t c => rfl
        | imageUrl u =>
          simp only [userContentOK, contentUnmarked, Bool.true_and]
          rw [List.all_eq_true]
          intro x hx
          have := hall x (by rw [hL]; exact hx)
          simpa using this
      · simp only [userContentOK, contentUnmarked, Bool.true_and]
        rw [List.all_eq_true]
        intro x hx
        have := hall x (by rw [hL]; exact hx)
        simpa using this

/-- Every message produced by the per-message conversion has unmarked
content, and when its role is `"user"` its content is additionally non-null. -/
theorem convertMessage_unmarked (cm : ClaudeMessage) (m : OpenAIMessage)
    (hm : m ∈ convertMessage cm) :
    contentUnmarked m.content = true ∧ ((m.role == "user") = true → userContentOK m = true) := by
  cases hc : cm.content with
  | str s =>
    simp only [convertMessage, hc, List.mem_singleton] at hm
    subst hm
    exact ⟨rfl, fun _ => rfl⟩
  | blocks bs =>
    simp only [convertMessage, hc] at hm
    by_cases hu : (cm.role == "user") = true
    · rw [if_pos hu] at hm
      rcases List.mem_append.mp hm with h | h
      · obtain ⟨b, hb, rfl⟩ := List.mem_map.mp h
        cases b <;> exact ⟨rfl, fun _ => rfl⟩
      · by_cases hne : (splitUserBlocks bs).1.isEmpty = true
        · rw [if_pos hne] at h
          simp at h
        · rw [if_neg hne] at h
          simp only [List.mem_singleton] at h
          subst h
          have := convert_blocks_contentOK (splitUserBlocks bs).1
          simp only [userContentOK, Bool.and_eq_true] at this
          exact ⟨this.2, fun _ => by
            simp only [userContentOK, Bool.and_eq_true]
            exact this⟩
    · rw [if_neg hu] at hm
      by_cases ha : (cm.role == "assistant") = true
      · rw [if_pos ha] at hm
        simp only [List.mem_singleton] at hm
        subst hm
        constructor
        · by_cases h1 : (splitAssistantBlocks bs).1.isEmpty = true
          · simp only [if_pos h1]
            rfl
          · simp only [if_neg h1]
            by_cases h2 : ((splitAssistantBlocks bs).1.filterMap (fun b => match b with
                | .text t => some t
                | _ => none)).isEmpty = true
            · simp only [if_pos h2]
              rfl
            · simp only [if_neg h2]
              rfl
        · intro hrole
          simp at hrole
      · rw [if_neg ha] at hm
        simp at hm

theorem systemMessages_cases (sys : Option SystemField) (flag : Bool) (m : OpenAIMessage)
    (hm : m ∈ systemMessages sys flag) :
    m.role = "system" ∧ (flag = false → contentUnmarked m.content = true) := by
  cases sys with
  | none => cases hm
  | some sf =>
    simp only [systemMessages] at hm
    by_cases h1 : sysTruthy sf = true
    · rw [if_pos h1] at hm
      by_cases h2 : (systemText sf).trim ≠ ""
      · rw [if_pos h2] at hm
        cases flag with
        | true =>
          rw [if_pos rfl] at hm
          simp only [List.mem_singleton] at hm
          subst hm
          exact ⟨rfl, fun h => by cases h⟩
        | false =>
          rw [if_neg Bool.false_ne_true] at hm
          simp only [List.mem_singleton] at hm
          subst hm
          exact ⟨rfl, fun _ => rfl⟩
      · rw [if_neg h2] at hm
        cases hm
    · rw [if_neg h1] at hm
      cases hm

/--
C7.  With the prompt-cache flag enabled, among the converted message list the
user-role messages carrying a `cache_control` marker are exactly the last
`min(N, 2)` of the `N` user-role messages, each marked precisely on its final
text-typed content element (bare strings having been converted to one-element
text arrays, and a `"..."` text element synthesized when no text element
exists); with the flag disabled no message carries a marker.
-/
theorem cache_control_last_two_user_messages (req : ClaudeRequest)
    (mapModel : String → String) (minL maxL : Int) :
    ((userMessagesOf (convert_claude_to_openai req mapModel ⟨true, minL, maxL⟩).messages).filter
        hasCacheMarker).length
      = min (userMessagesOf (convert_claude_to_openai req mapModel ⟨true, minL, maxL⟩).messages).length 2 ∧
    (∀ i m, (userMessagesOf (convert_claude_to_openai req mapModel
        ⟨true, minL, maxL⟩).messages)[i]? = some m →
      (hasCacheMarker m = true
        ↔ (userMessagesOf (convert_claude_to_openai req mapModel
            ⟨true, minL, maxL⟩).messages).length ≤ i + 2)) ∧
    (∀ m ∈ userMessagesOf (convert_claude_to_openai req mapModel ⟨true, minL, maxL⟩).messages,
      hasCacheMarker m = true → markedOnFinalTextOnly m = true) ∧
    (∀ m ∈ (convert_claude_to_openai req mapModel ⟨false, minL, maxL⟩).messages,
      hasCacheMarker m = false) := by
  have hconv : (convert_claude_to_openai req mapModel ⟨true, minL, maxL⟩).messages
      = applyCachePass (systemMessages req.system true ++ req.messages.flatMap convertMessage) := by
    show applyCachePass (systemMessages req.system true
        ++ req.messages.foldl (fun acc m => acc ++ convertMessage m) []) = _
    rw [foldl_convert_eq_flatMap, List.nil_append]
  have hconv0 : (convert_claude_to_openai req mapModel ⟨false, minL, maxL⟩).messages
      = systemMessages req.system false ++ req.messages.flatMap convertMessage := by
    show systemMessages req.system false
        ++ req.messages.foldl (fun acc m => acc ++ convertMessage m) [] = _
    rw [foldl_convert_eq_flatMap, List.nil_append]
  have hOK : ∀ m ∈ userMessagesOf (systemMessages req.system true
      ++ req.messages.flatMap convertMessage), userContentOK m = true := by
    intro m hm
    obtain ⟨hmem, hrole⟩ := List.mem_filter.mp hm
    rcases List.mem_append.mp hmem with h | h
    · have hsys := (systemMessages_cases _ _ _ h).1
      rw [hsys] at hrole
      simp at hrole
    · obtain ⟨cm, _, hmem2⟩ := List.mem_flatMap.mp h
      exact (convertMessage_unmarked cm m hmem2).2 hrole
  have hpass : userMessagesOf (applyCachePass (systemMessages req.system true
        ++ req.messages.flatMap convertMessage))
      = markFromOrd (userCount (systemMessages req.system true
          ++ req.messages.flatMap convertMessage)
        - min (userCount (systemMessages req.system true
          ++ req.messages.flatMap convertMessage)) 2) 0
        (userMessagesOf (systemMessages req.system true
          ++ req.messages.flatMap convertMessage)) :=
    cachePassGo_filter _ _ 0
  have hn : userCount (systemMessages req.system true ++ req.messages.flatMap convertMessage)
      = (userMessagesOf (systemMessages req.system true
          ++ req.messages.flatMap convertMessage)).length := by
    unfold userCount userMessagesOf
    rw [List.countP_eq_length_filter]
  -- abbreviations
  set us0 := userMessagesOf (systemMessages req.system true
      ++ req.messages.flatMap convertMessage) with hus0
  set n := us0.length with hnn
  rw [hn] at hpass
  have hlen : (markFromOrd (n - min n 2) 0 us0).length = n := markFromOrd_length _ us0 0
  -- decompose one indexed element of the marked list
  have hget : ∀ i m, (markFromOrd (n - min n 2) 0 us0)[i]? = some m →
      ∃ m0, us0[i]? = some m0 ∧ m = (if n - min n 2 ≤ i then addCacheControl m0 else m0) := by
    intro i m hm
    rw [markFromOrd_getElem?] at hm
    cases hus : us0[i]? with
    | none => rw [hus] at hm; cases hm
    | some m0 =>
      rw [hus] at hm
      simp only [Option.map_some'] at hm
      refine ⟨m0, rfl, ?_⟩
      rw [show (0 + i) = i from by omega] at hm
      exact ((Option.some.injEq _ _).mp hm).symm
  refine ⟨?_, ?_, ?_, ?_⟩
  · rw [hconv, hpass, ← List.countP_eq_length_filter, markFromOrd_countP _ us0 0 hOK, hlen]
    omega
  · intro i m hm
    rw [hconv, hpass] at hm ⊢
    rw [hlen]
    have hi : i < n := by
      by_contra hc
      push_neg at hc
      rw [List.getElem?_eq_none (by omega)] at hm
      cases hm
    obtain ⟨m0, hm0, heq⟩ := hget i m hm
    have hmem : m0 ∈ us0 := List.getElem?_mem hm0
    have hok := hOK m0 hmem
    by_cases hle : n - min n 2 ≤ i
    · rw [if_pos hle] at heq
      rw [heq, (addCacheControl_marks _ hok).1]
      constructor
      · intro _; omega
      · intro _; rfl
    · rw [if_neg hle] at heq
      have hunm : hasCacheMarker m0 = false := by
        apply noMarker_of_unmarked
        simp only [userContentOK, Bool.and_eq_true] at hok
        exact hok.2
      rw [heq, hunm]
      constructor
      · intro hc; cases hc
      · intro hc; omega
  · intro m hm hmark
    rw [hconv, hpass] at hm
    obtain ⟨i, hi, hieq⟩ := List.mem_iff_getElem.mp hm
    have h1 : (markFromOrd (n - min n 2) 0 us0)[i]? = some m := by
      rw [List.getElem?_eq_getElem hi, hieq]
    obtain ⟨m0, hm0, heq⟩ := hget i m h1
    have hok := hOK m0 (List.getElem?_mem hm0)
    by_cases hle : n - min n 2 ≤ i
    · rw [if_pos hle] at heq
      rw [heq]
      exact (addCacheControl_marks _ hok).2
    · rw [if_neg hle] at heq
      exfalso
      have hunm : hasCacheMarker m0 = false := by
        apply noMarker_of_unmarked
        simp only [userContentOK, Bool.and_eq_true] at hok
        exact hok.2
      rw [← heq, hmark] at hunm
      cases hunm
  · intro m hm
    rw [hconv0] at hm
    rcases List.mem_append.mp hm with h | h
    · exact noMarker_of_unmarked m ((systemMessages_cases _ _ _ h).2 rfl)
    · obtain ⟨cm, _, hmem2⟩ := List.mem_flatMap.mp h
      exact noMarker_of_unmarked m (convertMessage_unmarked cm m hmem2).1

/-- Witness for C7: three user messages — the marked user messages number
`min(3, 2) = 2`. -/
theorem cache_control_last_two_user_messages_witness :
    ((userMessagesOf (convert_claude_to_openai
        ⟨"m", [⟨"user", .str "a"⟩, ⟨"assistant", .str "x"⟩, ⟨"user", .str "b"⟩,
          ⟨"user", .str "c"⟩], none, 10, [], none, [], none, false⟩ id
        ⟨true, 1, 100⟩).messages).filter hasCacheMarker).length
      = min (userMessagesOf (convert_claude_to_openai
        ⟨"m", [⟨"user", .str "a"⟩, ⟨"assistant", .str "x"⟩, ⟨"user", .str "b"⟩,
          ⟨"user", .str "c"⟩], none, 10, [], none, [], none, false⟩ id
        ⟨true, 1, 100⟩).messages).length 2 :=
  (cache_control_last_two_user_messages
    ⟨"m", [⟨"user", .str "a"⟩, ⟨"assistant", .str "x"⟩, ⟨"user", .str "b"⟩,
      ⟨"user", .str "c"⟩], none, 10, [], none, [], none, false⟩ id 1 100).1

/-! ## Non-streaming Response Converter (src/conversion/response_converter.py,
`convert_openai_to_claude_response`)

`json.loads` on the tool-call `arguments` string is modelled by an arbitrary
parse oracle `String → Option JVal`; the generated fallback ids
(`f"tool_{uuid4()}"`, `f"msg_{uuid4()}"`) are modelled by fixed placeholder
strings (no claim inspects them). -/

/-- One entry of the upstream `tool_calls` array, as the code reads it
(`get` with defaults). -/
structure RToolCall where
  ctype : String
  id : Option String
  fname : Option String
  arguments : Option String

/-- The first choice's message: `content` (with `.null` standing for an
absent or JSON-null field) and the `tool_calls` list (absent/None/empty all
behave as the empty list, per `message.get("tool_calls", []) or []`). -/
structure RMessage where
  content : JVal
  tool_calls : List RToolCall

structure RChoice where
  message : RMessage
  finish_reason : Option String

/-- The upstream `usage` object, one optional field per key the code reads;
`cached_tokens_details` stands for `input_tokens_details.cached_tokens`. -/
structure UsageObj where
  input_tokens : Option Int
  prompt_tokens : Option Int
  output_tokens : Option Int
  completion_tokens : Option Int
  cache_creation_input_tokens : Option Int
  cache_read_input_tokens : Option Int
  cached_tokens_details : Option Int
deriving DecidableEq, Repr

structure OpenAIResponse where
  id : Option String
  choices : List RChoice
  usage : UsageObj

/-- A content block of the Claude-side response. -/
inductive CRBlock where
  | text (text : String)
  | image (media_type : String) (data : String)
  | toolUse (id : String) (name : String) (input : JVal)

structure UsageData where
  input_tokens : Int
  output_tokens : Int
  cache_creation_input_tokens : Option Int
  cache_read_input_tokens : Option Int
deriving DecidableEq, Repr

structure ClaudeResponse where
  id : String
  model : String
  content : List CRBlock
  stop_reason : String
  usage : UsageData

inductive ConvError where
  | noChoices
deriving DecidableEq, Repr

/-- `image_url.split(",", 1)` and the media-type extraction.  A data URL
(which starts with `"data:"`, so its header always contains a colon) fails to
parse exactly when it has no comma, in which case the code emits the
`"[Image content]"` placeholder. -/
def parseDataUrl (url : String) : Option (String × String) :=
  match url.splitOn "," with
  | [] => none
  | [_] => none
  | header :: rest =>
    let media_type := (((header.splitOn ":").getD 1 "").splitOn ";").headD ""
    some (media_type, String.intercalate "," rest)

/-- The structured-content loop body: one upstream content element yields zero
or one Claude blocks (non-dict elements are skipped). -/
def convertContentItem : JVal → List CRBlock
  | .obj fields =>
    match jlookup fields "type" with
    | some (.str "text") =>
      let text := getStrField fields "text"
      if text ≠ "" then [.text text] else []
    | some (.str "image_url") =>
      let image_url := match jlookup fields "image_url" with
        | some v =>
          (match v.getField "url" with
           | some (.str s) => s
           | some w => pyStr w
           | none => "")
        | none => ""
      if image_url.startsWith "data:" then
        match parseDataUrl image_url with
        | some (mt, d) => [.image mt d]
        | none => [.text "[Image content]"]
      else [.text ("[Image: " ++ image_url ++ "]")]
    | _ => [.text (pyStr (.obj fields))]
  | _ => []

/-- Content assembly from the choice's message content. -/
def convertMessageContent : JVal → List CRBlock
  | .null => []
  | .str s => [.text s]
  | .arr items => items.flatMap convertContentItem
  | v => [.text (pyStr v)]

/-- One upstream tool-call entry: only `type == "function"` entries are kept;
an argument string that fails to decode is replaced by
`{"raw_arguments": <original>}`. -/
def convertRToolCall (parseJson : String → Option JVal) (tc : RToolCall) : List CRBlock :=
  if tc.ctype == "function" then
    let args := match parseJson (tc.arguments.getD "\x7b\x7d") with
      | some v => v
      | none => .obj [("raw_arguments", .str (tc.arguments.getD ""))]
    [.toolUse (tc.id.getD "tool_generated") (tc.fname.getD "") args]
  else []

/-- The finish-reason table (`stop→end_turn`, `length→max_tokens`,
`tool_calls→tool_use`, `function_call→tool_use`, default `end_turn`). -/
def mapStopReason : Option String → String
  | some "stop" => "end_turn"
  | some "length" => "max_tokens"
  | some "tool_calls" => "tool_use"
  | some "function_call" => "tool_use"
  | _ => "end_turn"

/-- Usage assembly with the cache-token preference and zero-suppression rules.
The same code appears verbatim in `convert_openai_to_claude_response` and in
`convert_openai_streaming_to_claude_with_cancellation`; both embeddings share
this definition. -/
def buildUsageData (flag : Bool) (u : UsageObj) : UsageData :=
  let base_in := u.input_tokens.getD (u.prompt_tokens.getD 0)
  let base_out := u.output_tokens.getD (u.completion_tokens.getD 0)
  if flag then
    let cc := u.cache_creation_input_tokens.getD 0
    let cr0 := u.cache_read_input_tokens.getD 0
    let cr := if cr0 = 0 then
        (let cached := u.cached_tokens_details.getD 0
         if cached > 0 then cached else cr0)
      else cr0
    { input_tokens := base_in, output_tokens := base_out,
      cache_creation_input_tokens := if cc > 0 then some cc else none,
      cache_read_input_tokens := if cr > 0 then some cr else none }
  else
    { input_tokens := base_in, output_tokens := base_out,
      cache_creation_input_tokens := none, cache_read_input_tokens := none }

/-- `convert_openai_to_claude_response`: absence of any choice raises
(`ErrorKind NoChoices`); otherwise only the first choice is used and at least
one content block is guaranteed. -/
def convert_openai_to_claude_response (parseJson : String → Option JVal)
    (flag : Bool) (resp : OpenAIResponse) (reqModel : String) :
    Except ConvError ClaudeResponse :=
  match resp.choices with
  | [] => .error .noChoices
  | choice :: _ =>
    let content_blocks := convertMessageContent choice.message.content
      ++ choice.message.tool_calls.flatMap (convertRToolCall parseJson)
    let content_blocks := if content_blocks.isEmpty then [.text ""] else content_blocks
    .ok { id := resp.id.getD "msg_generated"
          model := reqModel
          content := content_blocks
          stop_reason := mapStopReason choice.finish_reason
          usage := buildUsageData flag resp.usage }

/--
C9.  The non-streaming conversion fails with `NoChoices` exactly when the
upstream `choices` list is empty, and for any response with at least one
choice it succeeds with at least one content block (an empty text block being
appended when none were produced).
-/
theorem response_conversion_choices_spec (parseJson : String → Option JVal)
    (flag : Bool) (resp : OpenAIResponse) (reqModel : String) :
    (convert_openai_to_claude_response parseJson flag resp reqModel
        = .error .noChoices ↔ resp.choices = []) ∧
    (resp.choices ≠ [] → ∃ r, convert_openai_to_claude_response parseJson flag resp reqModel
        = .ok r ∧ 1 ≤ r.content.length) := by
  cases hc : resp.choices with
  | nil =>
    constructor
    · constructor
      · intro _; rfl
      · intro _
        unfold convert_openai_to_claude_response
        rw [hc]
    · intro h
      exact absurd rfl h
  | cons choice rest =>
    have hok : convert_openai_to_claude_response parseJson flag resp reqModel
        = .ok { id := resp.id.getD "msg_generated"
                model := reqModel
                content :=
                  (if (convertMessageContent choice.message.content
                      ++ choice.message.tool_calls.flatMap (convertRToolCall parseJson)).isEmpty
                   then [.text ""]
                   else convertMessageContent choice.message.content
                      ++ choice.message.tool_calls.flatMap (convertRToolCall parseJson))
                stop_reason := mapStopReason choice.finish_reason
                usage := buildUsageData flag resp.usage } := by
      unfold convert_openai_to_claude_response
      rw [hc]
    constructor
    · rw [hok]
      constructor
      · intro h; cases h
      · intro h; cases h
    · intro _
      refine ⟨_, hok, ?_⟩
      show 1 ≤ (if (convertMessageContent choice.message.content
          ++ choice.message.tool_calls.flatMap (convertRToolCall parseJson)).isEmpty
        then [CRBlock.text ""]
        else convertMessageContent choice.message.content
          ++ choice.message.tool_calls.flatMap (convertRToolCall parseJson)).length
      by_cases he : (convertMessageContent choice.message.content
          ++ choice.message.tool_calls.flatMap (convertRToolCall parseJson)).isEmpty = true
      · rw [if_pos he]
        exact le_refl 1
      · rw [if_neg he]
        have : (convertMessageContent choice.message.content
            ++ choice.message.tool_calls.flatMap (convertRToolCall parseJson)) ≠ [] := by
          intro hn
          apply he
          rw [hn]
          rfl
        have hpos := List.length_pos.mpr this
        omega

/-- Witness for C9: a response with one plain-text choice does not raise
`NoChoices`. -/
theorem response_conversion_choices_spec_witness :
    (convert_openai_to_claude_response (fun _ => none) false
        ⟨some "id1", [⟨⟨.str "hello", []⟩, some "stop"⟩],
          ⟨none, none, none, none, none, none, none⟩⟩ "m"
      = .error .noChoices
    ↔ (⟨some "id1", [⟨⟨.str "hello", []⟩, some "stop"⟩],
        ⟨none, none, none, none, none, none, none⟩⟩ : OpenAIResponse).choices = []) :=
  (response_conversion_choices_spec (fun _ => none) false
    ⟨some "id1", [⟨⟨.str "hello", []⟩, some "stop"⟩],
      ⟨none, none, none, none, none, none, none⟩⟩ "m").1

/-! ## Streaming Translator (src/conversion/response_converter.py,
`convert_openai_streaming_to_claude` and
`convert_openai_streaming_to_claude_with_cancellation`)

The upstream SSE line stream is modelled at the parsed level: each consumed
line is either skippable (blank / non-`data:` / JSON-malformed), the `[DONE]`
sentinel, or a parsed chunk; the stream may also raise while producing the
next line.  `json.loads` applied to the accumulating tool-argument buffer is
modelled by an arbitrary validity oracle `String → Bool` that every theorem
quantifies over.  Events are modelled structurally (the `event:`/`data:` SSE
framing of §6 carries exactly these payloads). -/

/-- One entry of a `delta.tool_calls` array.  `index` defaults to 0
(`tc_delta.get("index", 0)`); `none` models an absent or JSON-null field. -/
structure ToolCallDelta where
  index : Nat
  id : Option String
  fname : Option String
  arguments : Option String

structure SDelta where
  content : Option String
  tool_calls : Option (List ToolCallDelta)

structure SChoice where
  delta : SDelta
  finish_reason : Option String

/-- A parsed streaming chunk.  `usage = some u` models a present and truthy
(non-empty) usage object. -/
structure SChunk where
  choices : List SChoice
  usage : Option UsageObj

inductive StreamItem where
  | blank
  | nonData
  | malformed
  | done
  | chunk (c : SChunk)

inductive ExcKind where
  | http (status : Nat) (msg : String)
  | other (msg : String)
deriving DecidableEq, Repr

/-- One upstream event: either the next line (paired with whether the inbound
client connection is detected as disconnected at this event boundary — the
plain translator performs no such check and ignores the flag), or an
exception raised by the upstream stream. -/
inductive UpEvent where
  | line (disconnected : Bool) (item : StreamItem)
  | fail (e : ExcKind)

/-- The outbound Source-Protocol events (§6). -/
inductive SSE where
  | messageStart (model : String)
  | contentBlockStartText
  | ping
  | textDelta (text : String)
  | toolBlockStart (index : Nat) (id : String) (name : String)
  | inputJsonDelta (index : Nat) (fragment : String)
  | contentBlockStop (index : Nat)
  | messageDelta (stop_reason : String) (usage : UsageData)
  | messageStop
  | errorEvent (etype : String) (message : String)
deriving DecidableEq, Repr

structure ToolAcc where
  id : Option String
  fname : Option String
  args_buffer : String
  json_sent : Bool
  claude_index : Option Nat
  started : Bool
deriving DecidableEq, Repr

def initToolAcc : ToolAcc := ⟨none, none, "", false, none, false⟩

structure TState where
  tool_block_counter : Nat
  tools : List (Nat × ToolAcc)
  final_stop_reason : String
  usage_data : UsageData
deriving DecidableEq, Repr

def initTState : TState := ⟨0, [], "end_turn", ⟨0, 0, none, none⟩⟩

def lookupTool (tools : List (Nat × ToolAcc)) (i : Nat) : Option ToolAcc :=
  match tools.find? (fun p => p.1 == i) with
  | some p => some p.2
  | none => none

/-- Dict assignment `current_tool_calls[tc_index] = acc`: replace in place, or
append a new entry (insertion order). -/
def setTool (tools : List (Nat × ToolAcc)) (i : Nat) (a : ToolAcc) : List (Nat × ToolAcc) :=
  if tools.any (fun p => p.1 == i) then
    tools.map (fun p => if p.1 == i then (p.1, a) else p)
  else tools ++ [(i, a)]

/-- Python string truthiness for optional string fields (`if tc_delta.get("id"):`). -/
def optTruthy : Option String → Bool
  | some s => s ≠ ""
  | none => false

/-- The streaming finish-reason if/elif chain (identical in both variants). -/
def mapFinishReasonStreaming : Option String → String
  | some "length" => "max_tokens"
  | some "tool_calls" => "tool_use"
  | some "function_call" => "tool_use"
  | some "stop" => "end_turn"
  | _ => "end_turn"

/-- The id/name updates of one tool-call delta (both guarded by Python string
truthiness). -/
def updToolAcc (td : ToolCallDelta) (acc0 : ToolAcc) : ToolAcc :=
  let acc1 := if optTruthy td.id then { acc0 with id := td.id } else acc0
  if optTruthy td.fname then { acc1 with fname := td.fname } else acc1

/-- The argument-fragment step: append to the buffer (only once the block has
started), and on the FIRST successful parse of the whole buffer emit exactly
one `input_json_delta` carrying the entire buffer. -/
def argStep (oracle : String → Bool) (acc : ToolAcc) : Option String → ToolAcc × List SSE
  | some args =>
    if acc.started then
      let buf := acc.args_buffer ++ args
      if oracle buf && !acc.json_sent then
        ({ acc with args_buffer := buf, json_sent := true },
         [SSE.inputJsonDelta (acc.claude_index.getD 0) buf])
      else ({ acc with args_buffer := buf }, [])
    else (acc, [])
  | none => (acc, [])

/-- The per-tool-call-delta body shared verbatim by the two streaming
translators: route by upstream index, accumulate id/name, start the content
block (allocating the next output index) once both id and name are truthy and
the block has not started, then run the argument step.  Only
`tool_block_counter` and the accumulator dict are touched; the function
returns their new values plus the emitted events. -/
def processToolDelta (oracle : String → Bool) (counter : Nat)
    (tools : List (Nat × ToolAcc)) (td : ToolCallDelta) :
    Nat × List (Nat × ToolAcc) × List SSE :=
  let acc0 := match lookupTool tools td.index with
    | some a => a
    | none => initToolAcc
  let acc2 := updToolAcc td acc0
  if optTruthy acc2.id && optTruthy acc2.fname && !acc2.started then
    let counter1 := counter + 1
    let acc3 := { acc2 with claude_index := some (0 + counter1), started := true }
    let r := argStep oracle acc3 td.arguments
    (counter1, setTool tools td.index r.1,
      SSE.toolBlockStart (0 + counter1) (acc2.id.getD "") (acc2.fname.getD "") :: r.2)
  else
    let r := argStep oracle acc2 td.arguments
    (counter, setTool tools td.index r.1, r.2)

/-- Fold the tool-call-delta loop over one chunk's `delta.tool_calls`. -/
def processToolDeltas (oracle : String → Bool) (counter : Nat)
    (tools : List (Nat × ToolAcc)) (tds : List ToolCallDelta) :
    Nat × List (Nat × ToolAcc) × List SSE :=
  tds.foldl (fun acc td =>
    let r := processToolDelta oracle acc.1 acc.2.1 td
    (r.1, r.2.1, acc.2.2 ++ r.2.2)) (counter, tools, [])

/-- One parsed chunk of the PLAIN translator: no usage capture; a truthy
finish reason sets the final stop reason and breaks the loop (third
component). -/
def processChunkPlain (oracle : String → Bool) (st : TState) (c : SChunk) :
    TState × List SSE × Bool :=
  match c.choices with
  | [] => (st, [], false)
  | choice :: _ =>
    let evsText := match choice.delta.content with
      | some t => [SSE.textDelta t]
      | none => []
    let r := match choice.delta.tool_calls with
      | some tds => processToolDeltas oracle st.tool_block_counter st.tools tds
      | none => (st.tool_block_counter, st.tools, [])
    let st1 := { st with tool_block_counter := r.1, tools := r.2.1 }
    if optTruthy choice.finish_reason then
      ({ st1 with final_stop_reason := mapFinishReasonStreaming choice.finish_reason },
       evsText ++ r.2.2, true)
    else (st1, evsText ++ r.2.2, false)

/-- One parsed chunk of the CANCELLATION-AWARE translator: usage is captured
(before the choices check) into `usage_data`; a truthy finish reason sets the
final stop reason but does NOT break. -/
def processChunkCancel (oracle : String → Bool) (flag : Bool) (st : TState) (c : SChunk) :
    TState × List SSE :=
  let st0 := match c.usage with
    | some u => { st with usage_data := buildUsageData flag u }
    | none => st
  match c.choices with
  | [] => (st0, [])
  | choice :: _ =>
    let evsText := match choice.delta.content with
      | some t => [SSE.textDelta t]
      | none => []
    let r := match choice.delta.tool_calls with
      | some tds =>
        if tds.isEmpty then (st0.tool_block_counter, st0.tools, [])
        else processToolDeltas oracle st0.tool_block_counter st0.tools tds
      | none => (st0.tool_block_counter, st0.tools, [])
    let st1 := { st0 with tool_block_counter := r.1, tools := r.2.1 }
    if optTruthy choice.finish_reason then
      ({ st1 with final_stop_reason := mapFinishReasonStreaming choice.finish_reason },
       evsText ++ r.2.2)
    else (st1, evsText ++ r.2.2)

/-- The initial `message_start` / empty text `content_block_start` / `ping`
events (both variants). -/
def startEvents (model : String) : List SSE :=
  [SSE.messageStart model, SSE.contentBlockStartText, SSE.ping]

/-- The teardown loop `for tool_data in current_tool_calls.values(): if
started and claude_index is not None: emit content_block_stop`. -/
def startedStops (st : TState) : List SSE :=
  st.tools.filterMap (fun p =>
    if p.2.started then
      match p.2.claude_index with
      | some k => some (SSE.contentBlockStop k)
      | none => none
    else none)

/-- The teardown sequence: `content_block_stop` for index 0, stops for the
started tool blocks, `message_delta` (with the given usage), `message_stop`. -/
def teardownEvents (st : TState) (usage : UsageData) : List SSE :=
  SSE.contentBlockStop 0 :: (startedStops st ++
    [SSE.messageDelta st.final_stop_reason usage, SSE.messageStop])

/-- The plain translator loop: returns the emitted events, the final state
and whether the loop ended normally (so that teardown runs). -/
def runPlainLoop (oracle : String → Bool) : List UpEvent → TState → List SSE × TState × Bool
  | [], st => ([], st, true)
  | .fail e :: _, st =>
    ([SSE.errorEvent "api_error" ("Streaming error: " ++
        (match e with | .http _ m => m | .other m => m))], st, false)
  | .line _ it :: rest, st =>
    match it with
    | .blank => runPlainLoop oracle rest st
    | .nonData => runPlainLoop oracle rest st
    | .malformed => runPlainLoop oracle rest st
    | .done => ([], st, true)
    | .chunk c =>
      let r := processChunkPlain oracle st c
      if r.2.2 then (r.2.1, r.1, true)
      else
        let r2 := runPlainLoop oracle rest r.1
        (r.2.1 ++ r2.1, r2.2.1, r2.2.2)

structure TransResult where
  events : List SSE
  cancelRequested : Bool
  raised : Option ExcKind
  completed : Bool
deriving Repr

/-- `convert_openai_streaming_to_claude` as a whole: prelude, loop, then
either the teardown (with a hard-coded zero usage in the `message_delta`) or
the single `api_error` event. -/
def convert_openai_streaming_to_claude (oracle : String → Bool) (model : String)
    (items : List UpEvent) : TransResult :=
  let r := runPlainLoop oracle items initTState
  if r.2.2 then
    ⟨startEvents model ++ r.1 ++ teardownEvents r.2.1 ⟨0, 0, none, none⟩, false, none, true⟩
  else
    ⟨startEvents model ++ r.1, false, none, false⟩

/-- Loop exits of the cancellation-aware translator. -/
inductive CExit where
  | completed
  | disconnected
  | errored
  | reraise (status : Nat) (msg : String)
deriving DecidableEq, Repr

/-- The cancellation-aware translator loop.  A detected disconnect requests
upstream cancellation and BREAKS (normal teardown still runs); an
`HTTPException` with status 499 raised by the stream yields the single
`cancelled` error event; other `HTTPException`s are re-raised; any other
exception yields the `api_error` event. -/
def runCancelLoop (oracle : String → Bool) (flag : Bool) :
    List UpEvent → TState → List SSE × TState × CExit
  | [], st => ([], st, .completed)
  | .fail (.http s m) :: _, st =>
    if s == 499 then
      ([SSE.errorEvent "cancelled" "Request was cancelled by client"], st, .errored)
    else ([], st, .reraise s m)
  | .fail (.other m) :: _, st =>
    ([SSE.errorEvent "api_error" ("Streaming error: " ++ m)], st, .errored)
  | .line disc it :: rest, st =>
    if disc then ([], st, .disconnected)
    else
      match it with
      | .blank => runCancelLoop oracle flag rest st
      | .nonData => runCancelLoop oracle flag rest st
      | .malformed => runCancelLoop oracle flag rest st
      | .done => ([], st, .completed)
      | .chunk c =>
        let r := processChunkCancel oracle flag st c
        let r2 := runCancelLoop oracle flag rest r.1
        (r.2 ++ r2.1, r2.2.1, r2.2.2)

/-- `convert_openai_streaming_to_claude_with_cancellation` as a whole.  The
teardown `message_delta` carries the captured `usage_data`. -/
def convert_openai_streaming_to_claude_with_cancellation (oracle : String → Bool)
    (flag : Bool) (model : String) (items : List UpEvent) : TransResult :=
  let r := runCancelLoop oracle flag items initTState
  match r.2.2 with
  | .completed =>
    ⟨startEvents model ++ r.1 ++ teardownEvents r.2.1 r.2.1.usage_data, false, none, true⟩
  | .disconnected =>
    ⟨startEvents model ++ r.1 ++ teardownEvents r.2.1 r.2.1.usage_data, true, none, true⟩
  | .errored => ⟨startEvents model ++ r.1, false, none, false⟩
  | .reraise s m => ⟨startEvents model ++ r.1, false, some (.http s m), false⟩

/-! ### C2: usage reporting in the final message_delta -/

/--
Counterexample to C2 as stated: in the PLAIN streaming translator
(`convert_openai_streaming_to_claude`) an upstream chunk carries a usage
object with `prompt_tokens = 5` and `completion_tokens = 7`, yet the final
`message_delta` reports the hard-coded zero usage — the plain variant never
reads the usage object at all (its `usage_data` is assigned
`{"input_tokens": 0, "output_tokens": 0}` right before the `message_delta` is
emitted).
-/
theorem plain_translator_usage_always_zero :
    (convert_openai_streaming_to_claude (fun _ => false) "m"
      [.line false (.chunk ⟨[⟨⟨none, none⟩, some "stop"⟩],
        some ⟨none, some 5, none, some 7, none, none, none⟩⟩)]).events
    = [.messageStart "m", .contentBlockStartText, .ping, .contentBlockStop 0,
       .messageDelta "end_turn" ⟨0, 0, none, none⟩, .messageStop] := rfl

/-- The step function of the chunk loop of the cancellation-aware translator,
iterated over a list of parsed chunks (used to reason about runs that consume
plain chunk lines only). -/
def runChunks (oracle : String → Bool) (flag : Bool) :
    List SChunk → TState → List SSE × TState
  | [], st => ([], st)
  | c :: rest, st =>
    let r := processChunkCancel oracle flag st c
    let r2 := runChunks oracle flag rest r.1
    (r.2 ++ r2.1, r2.2)

def mkChunkLine (c : SChunk) : UpEvent := .line false (.chunk c)

theorem processChunkCancel_usage (oracle : String → Bool) (flag : Bool)
    (st : TState) (c : SChunk) :
    (processChunkCancel oracle flag st c).1.usage_data
      = match c.usage with
        | some u => buildUsageData flag u
        | none => st.usage_data := by
  unfold processChunkCancel
  cases hu : c.usage with
  | none =>
    cases hch : c.choices with
    | nil => rfl
    | cons choice rest =>
      dsimp only
      split
      · rfl
      · rfl
  | some u =>
    cases hch : c.choices with
    | nil => rfl
    | cons choice rest =>
      dsimp only
      split
      · rfl
      · rfl

theorem runCancelLoop_chunks (oracle : String → Bool) (flag : Bool) :
    ∀ (cs : List SChunk) (l2 : List UpEvent) (st : TState),
      runCancelLoop oracle flag (cs.map mkChunkLine ++ l2) st
        = ((runChunks oracle flag cs st).1
            ++ (runCancelLoop oracle flag l2 (runChunks oracle flag cs st).2).1,
           (runCancelLoop oracle flag l2 (runChunks oracle flag cs st).2).2.1,
           (runCancelLoop oracle flag l2 (runChunks oracle flag cs st).2).2.2) := by
  intro cs
  induction cs with
  | nil =>
    intro l2 st
    simp only [List.map_nil, List.nil_append, runChunks]
  | cons c rest ih =>
    intro l2 st
    have hstep : runCancelLoop oracle flag ((mkChunkLine c :: rest.map mkChunkLine) ++ l2) st
        = ((processChunkCancel oracle flag st c).2
            ++ (runCancelLoop oracle flag (rest.map mkChunkLine ++ l2)
                (processChunkCancel oracle flag st c).1).1,
           (runCancelLoop oracle flag (rest.map mkChunkLine ++ l2)
                (processChunkCancel oracle flag st c).1).2.1,
           (runCancelLoop oracle flag (rest.map mkChunkLine ++ l2)
                (processChunkCancel oracle flag st c).1).2.2) := rfl
    rw [List.map_cons, hstep, ih]
    have hrc : runChunks oracle flag (c :: rest) st
        = ((processChunkCancel oracle flag st c).2
            ++ (runChunks oracle flag rest (processChunkCancel oracle flag st c).1).1,
           (runChunks oracle flag rest (processChunkCancel oracle flag st c).1).2) := rfl
    rw [hrc]
    simp [List.append_assoc]

theorem runChunks_usage (oracle : String → Bool) (flag : Bool) :
    ∀ (cs : List SChunk) (st : TState), (∀ c ∈ cs, c.usage = none) →
      (runChunks oracle flag cs st).2.usage_data = st.usage_data := by
  intro cs
  induction cs with
  | nil => intro st _; rfl
  | cons c rest ih =>
    intro st hn
    have hc := hn c (List.mem_cons_self c rest)
    have hstep : (runChunks oracle flag (c :: rest) st).2
        = (runChunks oracle flag rest (processChunkCancel oracle flag st c).1).2 := rfl
    rw [hstep, ih _ (fun x hx => hn x (List.mem_cons_of_mem _ hx)),
      processChunkCancel_usage]
    rw [hc]

theorem runChunks_append (oracle : String → Bool) (flag : Bool) :
    ∀ (a b : List SChunk) (st : TState),
      runChunks oracle flag (a ++ b) st
        = ((runChunks oracle flag a st).1
            ++ (runChunks oracle flag b (runChunks oracle flag a st).2).1,
           (runChunks oracle flag b (runChunks oracle flag a st).2).2) := by
  intro a
  induction a with
  | nil => intro b st; simp [runChunks]
  | cons c rest ih =>
    intro b st
    have h1 : runChunks oracle flag ((c :: rest) ++ b) st
        = ((processChunkCancel oracle flag st c).2
            ++ (runChunks oracle flag (rest ++ b) (processChunkCancel oracle flag st c).1).1,
           (runChunks oracle flag (rest ++ b) (processChunkCancel oracle flag st c).1).2) := rfl
    have h2 : runChunks oracle flag (c :: rest) st
        = ((processChunkCancel oracle flag st c).2
            ++ (runChunks oracle flag rest (processChunkCancel oracle flag st c).1).1,
           (runChunks oracle flag rest (processChunkCancel oracle flag st c).1).2) := rfl
    rw [h1, h2, ih]
    simp [List.append_assoc]

/--
C2 amended.  It is the CANCELLATION-AWARE translator that captures usage:
when exactly one consumed chunk carries a usage object `u` (and the client
stays connected and the stream neither fails nor ends early), the final
`message_delta` carries a usage value whose `input_tokens`/`output_tokens`
are read from `u` under either naming convention — not the zeros.  (The plain
variant always reports zeros; see the counterexample.)
-/
theorem cancel_translator_usage_from_event (oracle : String → Bool) (flag : Bool)
    (model : String) (pre post : List SChunk) (c0 : SChunk) (u : UsageObj)
    (hpre : ∀ c ∈ pre, c.usage = none) (hc0 : c0.usage = some u)
    (hpost : ∀ c ∈ post, c.usage = none) :
    ∃ evs1 fsr,
      (convert_openai_streaming_to_claude_with_cancellation oracle flag model
          ((pre ++ c0 :: post).map mkChunkLine)).events
        = evs1 ++ [SSE.messageDelta fsr (buildUsageData flag u), SSE.messageStop] ∧
      (buildUsageData flag u).input_tokens = u.input_tokens.getD (u.prompt_tokens.getD 0) ∧
      (buildUsageData flag u).output_tokens = u.output_tokens.getD (u.completion_tokens.getD 0) := by
  have hrun := runCancelLoop_chunks oracle flag (pre ++ c0 :: post) [] initTState
  rw [List.append_nil] at hrun
  have hnil : runCancelLoop oracle flag []
      (runChunks oracle flag (pre ++ c0 :: post) initTState).2 = ([], _, .completed) := rfl
  -- final state usage
  have husage : (runChunks oracle flag (pre ++ c0 :: post) initTState).2.usage_data
      = buildUsageData flag u := by
    rw [runChunks_append]
    have h1 : runChunks oracle flag (c0 :: post)
        (runChunks oracle flag pre initTState).2
        = ((processChunkCancel oracle flag (runChunks oracle flag pre initTState).2 c0).2
            ++ (runChunks oracle flag post
              (processChunkCancel oracle flag (runChunks oracle flag pre initTState).2 c0).1).1,
           (runChunks oracle flag post
              (processChunkCancel oracle flag (runChunks oracle flag pre initTState).2 c0).1).2) := rfl
    rw [h1]
    rw [runChunks_usage oracle flag post _ hpost]
    rw [processChunkCancel_usage]
    rw [hc0]
  have hres : (convert_openai_streaming_to_claude_with_cancellation oracle flag model
      ((pre ++ c0 :: post).map mkChunkLine)).events
      = startEvents model ++ (runChunks oracle flag (pre ++ c0 :: post) initTState).1
        ++ teardownEvents (runChunks oracle flag (pre ++ c0 :: post) initTState).2
            (runChunks oracle flag (pre ++ c0 :: post) initTState).2.usage_data := by
    unfold convert_openai_streaming_to_claude_with_cancellation
    rw [hrun, hnil]
    simp
  have htok : (buildUsageData flag u).input_tokens = u.input_tokens.getD (u.prompt_tokens.getD 0)
      ∧ (buildUsageData flag u).output_tokens = u.output_tokens.getD (u.completion_tokens.getD 0) := by
    cases flag <;> exact ⟨rfl, rfl⟩
  refine ⟨startEvents model ++ (runChunks oracle flag (pre ++ c0 :: post) initTState).1
      ++ (SSE.contentBlockStop 0
        :: startedStops (runChunks oracle flag (pre ++ c0 :: post) initTState).2),
    (runChunks oracle flag (pre ++ c0 :: post) initTState).2.final_stop_reason, ?_, htok.1, htok.2⟩
  rw [hres, husage]
  simp [teardownEvents, List.append_assoc]

/-- Witness for the amended C2: a single usage-carrying chunk with
`prompt_tokens = 5`, `completion_tokens = 7`. -/
theorem cancel_translator_usage_from_event_witness :
    ∃ evs1 fsr,
      (convert_openai_streaming_to_claude_with_cancellation (fun _ => false) false "m"
          (([] ++ (⟨[], some ⟨none, some 5, none, some 7, none, none, none⟩⟩ : SChunk) :: []).map
            mkChunkLine)).events
        = evs1 ++ [SSE.messageDelta fsr
            (buildUsageData false ⟨none, some 5, none, some 7, none, none, none⟩),
          SSE.messageStop] ∧
      (buildUsageData false ⟨none, some 5, none, some 7, none, none, none⟩).input_tokens
        = (none : Option Int).getD ((some (5 : Int)).getD 0) ∧
      (buildUsageData false ⟨none, some 5, none, some 7, none, none, none⟩).output_tokens
        = (none : Option Int).getD ((some (7 : Int)).getD 0) :=
  cancel_translator_usage_from_event (fun _ => false) false "m" [] []
    ⟨[], some ⟨none, some 5, none, some 7, none, none, none⟩⟩
    ⟨none, some 5, none, some 7, none, none, none⟩
    (fun c hc => absurd hc (List.not_mem_nil c)) rfl
    (fun c hc => absurd hc (List.not_mem_nil c))

/-! ### C3: disconnect handling in the cancellation-aware translator -/

/--
Counterexample to C3 as stated: when the inbound client connection is
detected as disconnected at an event boundary, the translator requests
cancellation and BREAKS out of the loop — after which the NORMAL teardown
events (`content_block_stop`, `message_delta`, `message_stop`) are emitted
and no `error` event of any kind appears.  The single `"cancelled"` error
event is emitted only when the upstream stream raises an HTTPException with
status 499.
-/
theorem disconnect_performs_normal_teardown :
    (convert_openai_streaming_to_claude_with_cancellation (fun _ => false) false "m"
        [.line true (.chunk ⟨[], none⟩)]).events
      = [.messageStart "m", .contentBlockStartText, .ping, .contentBlockStop 0,
         .messageDelta "end_turn" ⟨0, 0, none, none⟩, .messageStop] ∧
    (convert_openai_streaming_to_claude_with_cancellation (fun _ => false) false "m"
        [.line true (.chunk ⟨[], none⟩)]).cancelRequested = true ∧
    (convert_openai_streaming_to_claude_with_cancellation (fun _ => false) false "m"
        [.line true (.chunk ⟨[], none⟩)]).completed = true :=
  ⟨rfl, rfl, rfl⟩

/-- Events that the chunk loop itself can emit (everything else — the
prelude, teardown and error events — is emitted outside the per-chunk
processing). -/
def isLoopEvent : SSE → Bool
  | .textDelta _ => true
  | .toolBlockStart _ _ _ => true
  | .inputJsonDelta _ _ => true
  | _ => false

theorem argStep_loopEvents (oracle : String → Bool) (acc : ToolAcc) (args : Option String) :
    ∀ e ∈ (argStep oracle acc args).2, isLoopEvent e = true := by
  intro e he
  unfold argStep at he
  split at he
  · split at he
    · dsimp only at he
      split at he
      · cases he with
        | head => rfl
        | tail _ h => cases h
      · cases he
    · cases he
  · cases he

theorem processToolDelta_loopEvents (oracle : String → Bool) (counter : Nat)
    (tools : List (Nat × ToolAcc)) (td : ToolCallDelta) :
    ∀ e ∈ (processToolDelta oracle counter tools td).2.2, isLoopEvent e = true := by
  intro e he
  unfold processToolDelta at he
  dsimp only at he
  split at he
  · cases he with
    | head => rfl
    | tail _ h => exact argStep_loopEvents oracle _ td.arguments e h
  · exact argStep_loopEvents oracle _ td.arguments e he

theorem processToolDeltas_loopEvents (oracle : String → Bool) :
    ∀ (tds : List ToolCallDelta) (s : Nat × List (Nat × ToolAcc) × List SSE),
      (∀ e ∈ s.2.2, isLoopEvent e = true) →
      ∀ e ∈ (tds.foldl (fun acc td =>
          let r := processToolDelta oracle acc.1 acc.2.1 td
          (r.1, r.2.1, acc.2.2 ++ r.2.2)) s).2.2, isLoopEvent e = true := by
  intro tds
  induction tds with
  | nil => intro s hs e he; exact hs e he
  | cons td rest ih =>
    intro s hs e he
    refine ih _ ?_ e he
    intro x hx
    dsimp only at hx
    rcases List.mem_append.mp hx with h | h
    · exact hs x h
    · exact processToolDelta_loopEvents oracle s.1 s.2.1 td x h

theorem processChunkCancel_loopEvents (oracle : String → Bool) (flag : Bool)
    (st : TState) (c : SChunk) :
    ∀ e ∈ (processChunkCancel oracle flag st c).2, isLoopEvent e = true := by
  intro e he
  unfold processChunkCancel at he
  dsimp only at he
  split at he
  · cases he
  · split at he <;>
    · dsimp only at he
      rcases List.mem_append.mp he with h | h
      · split at h
        · cases h with
          | head => rfl
          | tail _ h2 => cases h2
        · cases h
      · split at h
        · split at h
          · cases h
          · exact processToolDeltas_loopEvents oracle _ _
              (fun y hy => absurd hy (List.not_mem_nil y)) e h
        · cases h

def isErrorEvent : SSE → Bool
  | .errorEvent _ _ => true
  | _ => false

theorem loopEvent_not_error (e : SSE) (h : isLoopEvent e = true) : isErrorEvent e = false := by
  cases e <;> first | rfl | (exact absurd h (by simp [isLoopEvent]))

theorem loopEvent_not_messageStop (e : SSE) (h : isLoopEvent e = true) :
    e ≠ SSE.messageStop := by
  intro hc
  rw [hc] at h
  simp [isLoopEvent] at h

theorem startedStops_mem (st : TState) :
    ∀ e ∈ startedStops st, ∃ k, e = SSE.contentBlockStop k := by
  intro e he
  obtain ⟨p, _, hpe⟩ := List.mem_filterMap.mp he
  split at hpe
  · split at hpe
    · rename_i k hk
      exact ⟨_, (Option.some.injEq _ _).mp hpe |>.symm⟩
    · cases hpe
  · cases hpe

theorem runChunks_loopEvents (oracle : String → Bool) (flag : Bool) :
    ∀ (cs : List SChunk) (st : TState),
      ∀ e ∈ (runChunks oracle flag cs st).1, isLoopEvent e = true := by
  intro cs
  induction cs with
  | nil => intro st e he; cases he
  | cons c rest ih =>
    intro st e he
    have hstep : (runChunks oracle flag (c :: rest) st).1
        = (processChunkCancel oracle flag st c).2
          ++ (runChunks oracle flag rest (processChunkCancel oracle flag st c).1).1 := rfl
    rw [hstep] at he
    rcases List.mem_append.mp he with h | h
    · exact processChunkCancel_loopEvents oracle flag st c e h
    · exact ih _ e h

/--
C3 amended.  Two distinct behaviours, matching the code: (a) when the inbound
client connection is detected as disconnected at an event boundary, the
translator requests cancellation of the upstream call and BREAKS, after which
the normal teardown runs (`message_stop` is emitted) and no `error` event of
any kind is emitted; (b) only when the upstream stream raises an
HTTPException with status 499 does the translator terminate with the single
`error` event of subtype `"cancelled"`, bypassing teardown (no
`message_stop`) and swallowing the exception.
-/
theorem disconnect_breaks_cancelled_event_only_on_499 (oracle : String → Bool)
    (flag : Bool) (model : String) (pre : List SChunk) (it : StreamItem)
    (rest : List UpEvent) (msg : String) :
    ((convert_openai_streaming_to_claude_with_cancellation oracle flag model
        (pre.map mkChunkLine ++ .line true it :: rest)).cancelRequested = true ∧
     (convert_openai_streaming_to_claude_with_cancellation oracle flag model
        (pre.map mkChunkLine ++ .line true it :: rest)).completed = true ∧
     SSE.messageStop ∈ (convert_openai_streaming_to_claude_with_cancellation oracle flag model
        (pre.map mkChunkLine ++ .line true it :: rest)).events ∧
     (∀ e ∈ (convert_openai_streaming_to_claude_with_cancellation oracle flag model
        (pre.map mkChunkLine ++ .line true it :: rest)).events, isErrorEvent e = false)) ∧
    ((convert_openai_streaming_to_claude_with_cancellation oracle flag model
        (pre.map mkChunkLine ++ .fail (.http 499 msg) :: rest)).events
        = startEvents model ++ (runChunks oracle flag pre initTState).1
          ++ [SSE.errorEvent "cancelled" "Request was cancelled by client"] ∧
     (convert_openai_streaming_to_claude_with_cancellation oracle flag model
        (pre.map mkChunkLine ++ .fail (.http 499 msg) :: rest)).completed = false ∧
     (convert_openai_streaming_to_claude_with_cancellation oracle flag model
        (pre.map mkChunkLine ++ .fail (.http 499 msg) :: rest)).raised = none ∧
     SSE.messageStop ∉ (convert_openai_streaming_to_claude_with_cancellation oracle flag model
        (pre.map mkChunkLine ++ .fail (.http 499 msg) :: rest)).events) := by
  have hl2a : runCancelLoop oracle flag (.line true it :: rest)
      (runChunks oracle flag pre initTState).2
      = ([], (runChunks oracle flag pre initTState).2, .disconnected) := rfl
  have hl2b : runCancelLoop oracle flag (.fail (.http 499 msg) :: rest)
      (runChunks oracle flag pre initTState).2
      = ([SSE.errorEvent "cancelled" "Request was cancelled by client"],
         (runChunks oracle flag pre initTState).2, .errored) := rfl
  have hrunA := runCancelLoop_chunks oracle flag pre (.line true it :: rest) initTState
  rw [hl2a] at hrunA
  have hrunB := runCancelLoop_chunks oracle flag pre (.fail (.http 499 msg) :: rest) initTState
  rw [hl2b] at hrunB
  have hresA : convert_openai_streaming_to_claude_with_cancellation oracle flag model
      (pre.map mkChunkLine ++ .line true it :: rest)
      = ⟨startEvents model ++ ((runChunks oracle flag pre initTState).1 ++ [])
          ++ teardownEvents (runChunks oracle flag pre initTState).2
              (runChunks oracle flag pre initTState).2.usage_data,
         true, none, true⟩ := by
    unfold convert_openai_streaming_to_claude_with_cancellation
    rw [hrunA]
  have hresB : convert_openai_streaming_to_claude_with_cancellation oracle flag model
      (pre.map mkChunkLine ++ .fail (.http 499 msg) :: rest)
      = ⟨startEvents model ++ ((runChunks oracle flag pre initTState).1
          ++ [SSE.errorEvent "cancelled" "Request was cancelled by client"]),
         false, none, false⟩ := by
    unfold convert_openai_streaming_to_claude_with_cancellation
    rw [hrunB]
  refine ⟨⟨?_, ?_, ?_, ?_⟩, ?_, ?_, ?_, ?_⟩
  · rw [hresA]
  · rw [hresA]
  · rw [hresA]
    simp only [teardownEvents]
    refine List.mem_append.mpr (Or.inr ?_)
    refine List.mem_cons.mpr (Or.inr ?_)
    refine List.mem_append.mpr (Or.inr ?_)
    exact List.mem_cons.mpr (Or.inr (List.mem_singleton.mpr rfl))
  · rw [hresA]
    intro e he
    rcases List.mem_append.mp he with h | h
    · rcases List.mem_append.mp h with h2 | h2
      · rcases List.mem_cons.mp h2 with h3 | h3
        · rw [h3]; rfl
        · rcases List.mem_cons.mp h3 with h4 | h4
          · rw [h4]; rfl
          · rcases List.mem_cons.mp h4 with h5 | h5
            · rw [h5]; rfl
            · cases h5
      · rw [List.append_nil] at h2
        exact loopEvent_not_error e (runChunks_loopEvents oracle flag pre initTState e h2)
    · simp only [teardownEvents] at h
      rcases List.mem_cons.mp h with h2 | h2
      · rw [h2]; rfl
      · rcases List.mem_append.mp h2 with h3 | h3
        · obtain ⟨k, hk⟩ := startedStops_mem _ e h3
          rw [hk]; rfl
        · rcases List.mem_cons.mp h3 with h4 | h4
          · rw [h4]; rfl
          · rcases List.mem_cons.mp h4 with h5 | h5
            · rw [h5]; rfl
            · cases h5
  · rw [hresB]
    simp [List.append_assoc]
  · rw [hresB]
  · rw [hresB]
  · rw [hresB]
    intro hmem
    rcases List.mem_append.mp hmem with h | h
    · rcases List.mem_cons.mp h with h2 | h2
      · cases h2
      · rcases List.mem_cons.mp h2 with h3 | h3
        · cases h3
        · rcases List.mem_cons.mp h3 with h4 | h4
          · cases h4
          · cases h4
    · rcases List.mem_append.mp h with h2 | h2
      · exact loopEvent_not_messageStop _ (runChunks_loopEvents oracle flag pre initTState _ h2) rfl
      · rcases List.mem_cons.mp h2 with h3 | h3
        · cases h3
        · cases h3

/-- Witness for the amended C3. -/
theorem disconnect_breaks_cancelled_event_only_on_499_witness :
    ((convert_openai_streaming_to_claude_with_cancellation (fun _ => false) false "m"
        (([] : List SChunk).map mkChunkLine ++ .line true .blank :: [])).cancelRequested = true ∧
     (convert_openai_streaming_to_claude_with_cancellation (fun _ => false) false "m"
        (([] : List SChunk).map mkChunkLine ++ .line true .blank :: [])).completed = true ∧
     SSE.messageStop ∈ (convert_openai_streaming_to_claude_with_cancellation (fun _ => false) false "m"
        (([] : List SChunk).map mkChunkLine ++ .line true .blank :: [])).events ∧
     (∀ e ∈ (convert_openai_streaming_to_claude_with_cancellation (fun _ => false) false "m"
        (([] : List SChunk).map mkChunkLine ++ .line true .blank :: [])).events,
          isErrorEvent e = false)) ∧
    ((convert_openai_streaming_to_claude_with_cancellation (fun _ => false) false "m"
        (([] : List SChunk).map mkChunkLine ++ .fail (.http 499 "x") :: [])).events
        = startEvents "m" ++ (runChunks (fun _ => false) false [] initTState).1
          ++ [SSE.errorEvent "cancelled" "Request was cancelled by client"] ∧
     (convert_openai_streaming_to_claude_with_cancellation (fun _ => false) false "m"
        (([] : List SChunk).map mkChunkLine ++ .fail (.http 499 "x") :: [])).completed = false ∧
     (convert_openai_streaming_to_claude_with_cancellation (fun _ => false) false "m"
        (([] : List SChunk).map mkChunkLine ++ .fail (.http 499 "x") :: [])).raised = none ∧
     SSE.messageStop ∉ (convert_openai_streaming_to_claude_with_cancellation (fun _ => false) false "m"
        (([] : List SChunk).map mkChunkLine ++ .fail (.http 499 "x") :: [])).events) :=
  disconnect_breaks_cancelled_event_only_on_499 (fun _ => false) false "m" [] .blank [] "x"

/-! ### C5: content_block_start / content_block_stop discipline for tool blocks -/

def countToolStart (evs : List SSE) (k : Nat) : Nat :=
  evs.countP (fun e => match e with
    | .toolBlockStart i _ _ => i == k
    | _ => false)

def countBlockStop (evs : List SSE) (k : Nat) : Nat :=
  evs.countP (fun e => match e with
    | .contentBlockStop i => i == k
    | _ => false)

/-- The output indexes of the started tool accumulators, in dict order. -/
def startedIdxs (tools : List (Nat × ToolAcc)) : List Nat :=
  tools.filterMap (fun p => if p.2.started then p.2.claude_index else none)

/-- Contribution of a single accumulator to the count of output index `k`. -/
def accContrib (acc : ToolAcc) (k : Nat) : Nat :=
  if acc.started then
    match acc.claude_index with
    | some j => if j == k then 1 else 0
    | none => 0
  else 0

def keysNodup (tools : List (Nat × ToolAcc)) : Prop :=
  (tools.map Prod.fst).Nodup

/-- The state invariant maintained by the tool-call-delta loop: the dict keys
are distinct (Python dict), every started output index occurs once, and all
started output indexes lie in `[1, tool_block_counter]`. -/
def PInv (counter : Nat) (tools : List (Nat × ToolAcc)) : Prop :=
  keysNodup tools ∧
  (∀ k, (startedIdxs tools).count k ≤ 1) ∧
  (∀ k, (startedIdxs tools).count k ≠ 0 → 1 ≤ k ∧ k ≤ counter)

theorem startedIdxs_append (l1 l2 : List (Nat × ToolAcc)) :
    startedIdxs (l1 ++ l2) = startedIdxs l1 ++ startedIdxs l2 := by
  unfold startedIdxs
  rw [List.filterMap_append]

theorem count_startedIdxs_cons (l2 : List (Nat × ToolAcc)) (i : Nat) (x : ToolAcc) (k : Nat) :
    (startedIdxs ((i, x) :: l2)).count k = accContrib x k + (startedIdxs l2).count k := by
  unfold startedIdxs accContrib
  rw [List.filterMap_cons]
  dsimp only
  by_cases hs : x.started = true
  · rw [if_pos hs, if_pos hs]
    cases hci : x.claude_index with
    | none =>
      dsimp only
      omega
    | some j =>
      dsimp only
      rw [List.count_cons]
      by_cases hjk : (j == k) = true
      · omega
      · omega
  · rw [if_neg hs, if_neg hs]
    dsimp only
    omega

theorem count_startedIdxs_middle (l1 l2 : List (Nat × ToolAcc)) (i : Nat) (x : ToolAcc) (k : Nat) :
    (startedIdxs (l1 ++ (i, x) :: l2)).count k
      = (startedIdxs l1).count k + accContrib x k + (startedIdxs l2).count k := by
  rw [startedIdxs_append, List.count_append, count_startedIdxs_cons]
  omega

theorem mapNoKey (i : Nat) (a : ToolAcc) :
    ∀ (tl : List (Nat × ToolAcc)), (∀ p ∈ tl, (p.1 == i) = false) →
      tl.map (fun p => if p.1 == i then (p.1, a) else p) = tl := by
  intro tl
  induction tl with
  | nil => intro _; rfl
  | cons hd rest ih =>
    intro h
    simp only [List.map_cons]
    rw [if_neg (by rw [h hd (List.mem_cons_self hd rest)]; exact Bool.false_ne_true)]
    rw [ih (fun p hp => h p (List.mem_cons_of_mem _ hp))]

theorem setTool_present (i : Nat) (a : ToolAcc) :
    ∀ (tools : List (Nat × ToolAcc)), keysNodup tools →
      tools.any (fun p => p.1 == i) = true →
      ∃ l1 acc0 l2, tools = l1 ++ (i, acc0) :: l2 ∧ setTool tools i a = l1 ++ (i, a) :: l2 ∧
        lookupTool tools i = some acc0 ∧ keysNodup (l1 ++ (i, a) :: l2) := by
  intro tools
  induction tools with
  | nil => intro _ hany; simp at hany
  | cons hd tl ih =>
    intro hnd hany
    have hnd' : keysNodup tl ∧ hd.1 ∉ tl.map Prod.fst := by
      unfold keysNodup at hnd ⊢
      rw [List.map_cons, List.nodup_cons] at hnd
      exact ⟨hnd.2, hnd.1⟩
    by_cases hhd : (hd.1 == i) = true
    · have hji : hd.1 = i := by simpa using hhd
      refine ⟨[], hd.2, tl, ?_, ?_, ?_, ?_⟩
      · rw [List.nil_append]
        cases hd with
        | mk j b =>
          simp only at hji
          rw [hji]
      · unfold setTool
        rw [if_pos hany, List.map_cons, if_pos hhd, hji]
        rw [mapNoKey i a tl]
        · rfl
        · intro p hp
          rw [Bool.eq_false_iff]
          intro hpk
          apply hnd'.2
          rw [hji]
          have : p.1 = i := by simpa using hpk
          rw [← this]
          exact List.mem_map.mpr ⟨p, hp, rfl⟩
      · have hfind : (hd :: tl).find? (fun p => p.1 == i) = some hd :=
          List.find?_cons_of_pos _ hhd
        unfold lookupTool
        rw [hfind]
      · unfold keysNodup
        rw [List.nil_append, List.map_cons, List.nodup_cons]
        constructor
        · rw [← hji]
          exact hnd'.2
        · exact hnd'.1
    · have hany' : tl.any (fun p => p.1 == i) = true := by
        rw [List.any_cons] at hany
        rcases Bool.or_eq_true_iff.mp hany with h | h
        · exact absurd h hhd
        · exact h
      obtain ⟨l1, acc0, l2, h1, h2, h3, h4⟩ := ih hnd'.1 hany'
      refine ⟨hd :: l1, acc0, l2, ?_, ?_, ?_, ?_⟩
      · rw [List.cons_append, h1]
      · unfold setTool
        rw [if_pos hany, List.map_cons, if_neg (by rw [Bool.not_eq_true] at hhd ⊢; exact hhd)]
        have h2' : tl.map (fun p => if p.1 == i then (p.1, a) else p) = l1 ++ (i, a) :: l2 := by
          unfold setTool at h2
          rw [if_pos hany'] at h2
          exact h2
        rw [h2', List.cons_append]
      · have hfind : (hd :: tl).find? (fun p => p.1 == i) = tl.find? (fun p => p.1 == i) :=
          List.find?_cons_of_neg _ (by rw [Bool.not_eq_true] at hhd ⊢; exact hhd)
        unfold lookupTool at h3 ⊢
        rw [hfind]
        exact h3
      · unfold keysNodup
        rw [List.cons_append, List.map_cons, List.nodup_cons]
        constructor
        · intro hmem
          apply hnd'.2
          rw [h1]
          have hkeys : (l1 ++ (i, a) :: l2).map Prod.fst
              = (l1 ++ (i, acc0) :: l2).map Prod.fst := by
            simp [List.map_append]
          rw [hkeys] at hmem
          exact hmem
        · exact h4

theorem lookupTool_absent (i : Nat) (tools : List (Nat × ToolAcc))
    (hany : tools.any (fun p => p.1 == i) = false) : lookupTool tools i = none := by
  unfold lookupTool
  rw [List.find?_eq_none.mpr]
  intro p hp
  rw [List.any_eq_false] at hany
  have := hany p hp
  simpa using this

theorem setTool_absent (i : Nat) (a : ToolAcc) (tools : List (Nat × ToolAcc))
    (hany : tools.any (fun p => p.1 == i) = false) :
    setTool tools i a = tools ++ [(i, a)] := by
  unfold setTool
  rw [if_neg (by rw [hany]; exact Bool.false_ne_true)]

theorem keysNodup_append_absent (i : Nat) (a : ToolAcc) (tools : List (Nat × ToolAcc))
    (hnd : keysNodup tools) (hany : tools.any (fun p => p.1 == i) = false) :
    keysNodup (tools ++ [(i, a)]) := by
  unfold keysNodup at hnd ⊢
  rw [List.map_append, List.nodup_append]
  refine ⟨hnd, List.nodup_singleton i, ?_⟩
  intro x hx
  simp only [List.map_cons, List.map_nil, List.mem_singleton]
  intro hxi
  rw [List.any_eq_false] at hany
  obtain ⟨p, hp, hpx⟩ := List.mem_map.mp hx
  have := hany p hp
  rw [hxi] at hpx
  simp at this
  exact this hpx

theorem updToolAcc_preserves (td : ToolCallDelta) (acc : ToolAcc) :
    (updToolAcc td acc).started = acc.started ∧
    (updToolAcc td acc).claude_index = acc.claude_index := by
  unfold updToolAcc
  dsimp only
  split
  · split
    · exact ⟨rfl, rfl⟩
    · exact ⟨rfl, rfl⟩
  · split
    · exact ⟨rfl, rfl⟩
    · exact ⟨rfl, rfl⟩

theorem argStep_preserves (oracle : String → Bool) (acc : ToolAcc) (args : Option String) :
    (argStep oracle acc args).1.started = acc.started ∧
    (argStep oracle acc args).1.claude_index = acc.claude_index := by
  unfold argStep
  split
  · dsimp only
    split
    · split
      · exact ⟨rfl, rfl⟩
      · exact ⟨rfl, rfl⟩
    · exact ⟨rfl, rfl⟩
  · exact ⟨rfl, rfl⟩

theorem argStep_no_toolStart (oracle : String → Bool) (acc : ToolAcc) (args : Option String) :
    (∀ k, countToolStart (argStep oracle acc args).2 k = 0) ∧
    (∀ i idv nm, SSE.toolBlockStart i idv nm ∉ (argStep oracle acc args).2) := by
  unfold argStep
  split
  · dsimp only
    split
    · split
      · refine ⟨fun k => rfl, ?_⟩
        intro i idv nm hmem
        cases hmem with
        | tail _ h => cases h
      · exact ⟨fun k => rfl, fun i idv nm hmem => by cases hmem⟩
    · exact ⟨fun k => rfl, fun i idv nm hmem => by cases hmem⟩
  · exact ⟨fun k => rfl, fun i idv nm hmem => by cases hmem⟩

theorem accContrib_congr (a b : ToolAcc) (hs : a.started = b.started)
    (hc : a.claude_index = b.claude_index) : ∀ k, accContrib a k = accContrib b k := by
  intro k
  unfold accContrib
  rw [hs, hc]

theorem optTruthy_getD (o : Option String) (h : optTruthy o = true) : o.getD "" ≠ "" := by
  cases o with
  | none => cases h
  | some s =>
    simp only [Option.getD_some]
    simpa [optTruthy] using h

/-- The specification of one step of the tool-delta loop with respect to the
started-block bookkeeping and the emitted events. -/
def StepSpec (counter : Nat) (tools : List (Nat × ToolAcc)) (counter' : Nat)
    (tools' : List (Nat × ToolAcc)) (evs : List SSE) : Prop :=
  counter ≤ counter' ∧
  (∀ k, (startedIdxs tools').count k = (startedIdxs tools).count k + countToolStart evs k) ∧
  (∀ k, countToolStart evs k ≠ 0 → counter < k ∧ k ≤ counter' ∧ countToolStart evs k = 1) ∧
  (∀ i idv nm, SSE.toolBlockStart i idv nm ∈ evs → idv ≠ "" ∧ nm ≠ "")

theorem StepSpec.rfl (counter : Nat) (tools : List (Nat × ToolAcc)) :
    StepSpec counter tools counter tools [] :=
  ⟨le_refl _, fun k => by simp [countToolStart],
   fun k h => absurd (by simp [countToolStart]) h,
   fun i idv nm h => by cases h⟩

theorem StepSpec.trans {c t c1 t1 e1 c2 t2 e2} (h1 : StepSpec c t c1 t1 e1)
    (h2 : StepSpec c1 t1 c2 t2 e2) : StepSpec c t c2 t2 (e1 ++ e2) := by
  obtain ⟨m1, cnt1, u1, id1⟩ := h1
  obtain ⟨m2, cnt2, u2, id2⟩ := h2
  have hcApp : ∀ k, countToolStart (e1 ++ e2) k = countToolStart e1 k + countToolStart e2 k := by
    intro k
    unfold countToolStart
    rw [List.countP_append]
  refine ⟨le_trans m1 m2, ?_, ?_, ?_⟩
  · intro k
    rw [hcApp, cnt2, cnt1]
    omega
  · intro k hk
    rw [hcApp] at hk ⊢
    by_cases hk1 : countToolStart e1 k ≠ 0
    · obtain ⟨hlt, hle, hone⟩ := u1 k hk1
      have hz : countToolStart e2 k = 0 := by
        by_contra hk2
        obtain ⟨hlt2, _, _⟩ := u2 k hk2
        omega
      exact ⟨hlt, le_trans hle m2, by omega⟩
    · push_neg at hk1
      have hk2 : countToolStart e2 k ≠ 0 := by omega
      obtain ⟨hlt2, hle2, hone2⟩ := u2 k hk2
      exact ⟨by omega, hle2, by omega⟩
  · intro i idv nm hmem
    rcases List.mem_append.mp hmem with h | h
    · exact id1 i idv nm h
    · exact id2 i idv nm h

theorem processToolDelta_step (oracle : String → Bool) (counter : Nat)
    (tools : List (Nat × ToolAcc)) (td : ToolCallDelta) (hInv : PInv counter tools) :
    PInv (processToolDelta oracle counter tools td).1
      (processToolDelta oracle counter tools td).2.1 ∧
    StepSpec counter tools (processToolDelta oracle counter tools td).1
      (processToolDelta oracle counter tools td).2.1
      (processToolDelta oracle counter tools td).2.2 := by
  obtain ⟨hnd, hle1, hbnd⟩ := hInv
  -- name the stored accumulator and the updated one
  set accStored := (match lookupTool tools td.index with
    | some a => a
    | none => initToolAcc) with haccStored
  set acc2 := updToolAcc td accStored with hacc2
  have hpres2 := updToolAcc_preserves td accStored
  -- the stored accumulator contribution, under both presence cases
  by_cases hany : tools.any (fun p => p.1 == td.index) = true
  · obtain ⟨l1, acc0, l2, hdec, hset, hlook, hnd'⟩ := setTool_present td.index
      ((argStep oracle (if optTruthy acc2.id && optTruthy acc2.fname && !acc2.started then
          { acc2 with claude_index := some (0 + (counter + 1)), started := true }
        else acc2) td.arguments).1) tools hnd hany
    have hstored : accStored = acc0 := by
      rw [haccStored, hlook]
    by_cases hstart : (optTruthy acc2.id && optTruthy acc2.fname && !acc2.started) = true
    · -- the start branch, key present
      have hres : processToolDelta oracle counter tools td
          = (counter + 1,
             setTool tools td.index
               (argStep oracle { acc2 with claude_index := some (0 + (counter + 1)), started := true } td.arguments).1,
             SSE.toolBlockStart (0 + (counter + 1)) (acc2.id.getD "") (acc2.fname.getD "")
               :: (argStep oracle { acc2 with claude_index := some (0 + (counter + 1)), started := true } td.arguments).2) := by
        simp only [processToolDelta]
        rw [← haccStored, ← hacc2, if_pos hstart]
      rw [if_pos hstart] at hset hnd'
      have hpresArg := argStep_preserves oracle { acc2 with claude_index := some (0 + (counter + 1)), started := true } td.arguments
      have hnoArg := argStep_no_toolStart oracle { acc2 with claude_index := some (0 + (counter + 1)), started := true } td.arguments
      have hacc0started : acc0.started = false := by
        have h2 : acc2.started = false := by
          rcases Bool.and_eq_true_iff.mp hstart with ⟨_, h⟩
          rw [Bool.not_eq_true'] at h
          exact h
        rw [← hstored, ← hpres2.1, h2]
      have hcontrib0 : ∀ k, accContrib acc0 k = 0 := by
        intro k
        unfold accContrib
        rw [hacc0started]
        rfl
      have hcontribNew : ∀ k, accContrib (argStep oracle { acc2 with claude_index := some (0 + (counter + 1)), started := true } td.arguments).1 k = (if ((0 + (counter + 1)) == k) = true then 1 else 0) := by
        intro k
        unfold accContrib
        rw [hpresArg.1, hpresArg.2]
        rfl
      have hcountEvs : ∀ k, countToolStart (processToolDelta oracle counter tools td).2.2 k
          = (if ((0 + (counter + 1)) == k) = true then 1 else 0) := by
        intro k
        rw [hres]
        unfold countToolStart
        rw [List.countP_cons]
        have := (hnoArg.1 k)
        unfold countToolStart at this
        rw [this, Nat.zero_add]
      have hcountTools : ∀ k, (startedIdxs (processToolDelta oracle counter tools td).2.1).count k
          = (startedIdxs tools).count k + (if ((0 + (counter + 1)) == k) = true then 1 else 0) := by
        intro k
        rw [hres]
        dsimp only
        rw [hset, count_startedIdxs_middle, hdec, count_startedIdxs_middle,
          hcontrib0, hcontribNew]
        omega
      have hk_eq : ∀ k, ((0 + (counter + 1)) == k) = true ↔ k = counter + 1 := by
        intro k
        rw [beq_iff_eq]
        omega
      constructor
      · refine ⟨?_, ?_, ?_⟩
        · rw [hres]
          dsimp only
          rw [hset]
          exact hnd'
        · intro k
          rw [hcountTools]
          by_cases hk : k = counter + 1
          · have hz : (startedIdxs tools).count k = 0 := by
              by_contra hc
              have := hbnd k hc
              omega
            rw [hz, if_pos ((hk_eq k).mpr hk)]
          · rw [if_neg (fun hc => hk ((hk_eq k).mp hc))]
            have := hle1 k
            omega
        · intro k hk
          rw [hres]
          dsimp only
          rw [hcountTools] at hk
          by_cases hkc : k = counter + 1
          · omega
          · rw [if_neg (fun hc => hkc ((hk_eq k).mp hc))] at hk
            simp only [Nat.add_zero] at hk
            have := hbnd k hk
            omega
      · refine ⟨by rw [hres]; exact Nat.le_succ _, ?_, ?_, ?_⟩
        · intro k
          rw [hcountTools, hcountEvs]
        · intro k hk
          rw [hcountEvs] at hk ⊢
          by_cases hkc : ((0 + (counter + 1)) == k) = true
          · have := (hk_eq k).mp hkc
            rw [hres]
            dsimp only
            refine ⟨by omega, by omega, by rw [if_pos hkc]⟩
          · rw [if_neg hkc] at hk
            exact absurd rfl hk
        · intro i idv nm hmem
          rw [hres] at hmem
          cases hmem with
          | head =>
            rcases Bool.and_eq_true_iff.mp hstart with ⟨hids, _⟩
            rcases Bool.and_eq_true_iff.mp hids with ⟨hid, hnm⟩
            exact ⟨optTruthy_getD _ hid, optTruthy_getD _ hnm⟩
          | tail _ h => exact absurd h (hnoArg.2 i idv nm)
    · -- no start, key present
      have hres : processToolDelta oracle counter tools td
          = (counter, setTool tools td.index (argStep oracle acc2 td.arguments).1,
             (argStep oracle acc2 td.arguments).2) := by
        simp only [processToolDelta]
        rw [← haccStored, ← hacc2, if_neg hstart]
      rw [if_neg hstart] at hset hnd'
      have hpresArg := argStep_preserves oracle acc2 td.arguments
      have hnoArg := argStep_no_toolStart oracle acc2 td.arguments
      have hcontribEq : ∀ k, accContrib (argStep oracle acc2 td.arguments).1 k
          = accContrib acc0 k := by
        intro k
        apply accContrib_congr
        · rw [hpresArg.1, hpres2.1, hstored]
        · rw [hpresArg.2, hpres2.2, hstored]
      have hcountTools : ∀ k, (startedIdxs (processToolDelta oracle counter tools td).2.1).count k
          = (startedIdxs tools).count k := by
        intro k
        rw [hres]
        dsimp only
        rw [hset, count_startedIdxs_middle, hdec, count_startedIdxs_middle, hcontribEq]
      constructor
      · refine ⟨?_, ?_, ?_⟩
        · rw [hres]
          dsimp only
          rw [hset]
          exact hnd'
        · intro k
          rw [hcountTools]
          exact hle1 k
        · intro k hk
          rw [hres]
          dsimp only
          rw [hcountTools] at hk
          exact hbnd k hk
      · refine ⟨by rw [hres], ?_, ?_, ?_⟩
        · intro k
          rw [hcountTools, hres]
          dsimp only
          rw [hnoArg.1 k]
          omega
        · intro k hk
          rw [hres] at hk
          dsimp only at hk
          rw [hnoArg.1 k] at hk
          exact absurd rfl hk
        · intro i idv nm hmem
          rw [hres] at hmem
          exact absurd hmem (hnoArg.2 i idv nm)
  · -- key absent
    have hany' : tools.any (fun p => p.1 == td.index) = false := by
      rw [Bool.not_eq_true] at hany
      exact hany
    have hstored : accStored = initToolAcc := by
      rw [haccStored, lookupTool_absent _ _ hany']
    by_cases hstart : (optTruthy acc2.id && optTruthy acc2.fname && !acc2.started) = true
    · have hres : processToolDelta oracle counter tools td
          = (counter + 1,
             setTool tools td.index
               (argStep oracle { acc2 with claude_index := some (0 + (counter + 1)), started := true } td.arguments).1,
             SSE.toolBlockStart (0 + (counter + 1)) (acc2.id.getD "") (acc2.fname.getD "")
               :: (argStep oracle { acc2 with claude_index := some (0 + (counter + 1)), started := true } td.arguments).2) := by
        simp only [processToolDelta]
        rw [← haccStored, ← hacc2, if_pos hstart]
      have hset := setTool_absent td.index
        ((argStep oracle { acc2 with claude_index := some (0 + (counter + 1)), started := true } td.arguments).1) tools hany'
      have hpresArg := argStep_preserves oracle { acc2 with claude_index := some (0 + (counter + 1)), started := true } td.arguments
      have hnoArg := argStep_no_toolStart oracle { acc2 with claude_index := some (0 + (counter + 1)), started := true } td.arguments
      have hcontribNew : ∀ k, accContrib (argStep oracle { acc2 with claude_index := some (0 + (counter + 1)), started := true } td.arguments).1 k = (if ((0 + (counter + 1)) == k) = true then 1 else 0) := by
        intro k
        unfold accContrib
        rw [hpresArg.1, hpresArg.2]
        rfl
      have hcountEvs : ∀ k, countToolStart (processToolDelta oracle counter tools td).2.2 k
          = (if ((0 + (counter + 1)) == k) = true then 1 else 0) := by
        intro k
        rw [hres]
        unfold countToolStart
        rw [List.countP_cons]
        have := (hnoArg.1 k)
        unfold countToolStart at this
        rw [this, Nat.zero_add]
      have hcountTools : ∀ k, (startedIdxs (processToolDelta oracle counter tools td).2.1).count k
          = (startedIdxs tools).count k + (if ((0 + (counter + 1)) == k) = true then 1 else 0) := by
        intro k
        rw [hres]
        dsimp only
        rw [hset, startedIdxs_append, List.count_append, count_startedIdxs_cons]
        have hnil : (startedIdxs ([] : List (Nat × ToolAcc))).count k = 0 := rfl
        rw [hcontribNew]
        unfold startedIdxs
        simp only [List.filterMap_nil, List.count_nil]
        omega
      have hk_eq : ∀ k, ((0 + (counter + 1)) == k) = true ↔ k = counter + 1 := by
        intro k
        rw [beq_iff_eq]
        omega
      constructor
      · refine ⟨?_, ?_, ?_⟩
        · rw [hres]
          dsimp only
          rw [hset]
          exact keysNodup_append_absent _ _ _ hnd hany'
        · intro k
          rw [hcountTools]
          by_cases hk : k = counter + 1
          · have hz : (startedIdxs tools).count k = 0 := by
              by_contra hc
              have := hbnd k hc
              omega
            rw [hz, if_pos ((hk_eq k).mpr hk)]
          · rw [if_neg (fun hc => hk ((hk_eq k).mp hc))]
            have := hle1 k
            omega
        · intro k hk
          rw [hres]
          dsimp only
          rw [hcountTools] at hk
          by_cases hkc : k = counter + 1
          · omega
          · rw [if_neg (fun hc => hkc ((hk_eq k).mp hc))] at hk
            simp only [Nat.add_zero] at hk
            have := hbnd k hk
            omega
      · refine ⟨by rw [hres]; exact Nat.le_succ _, ?_, ?_, ?_⟩
        · intro k
          rw [hcountTools, hcountEvs]
        · intro k hk
          rw [hcountEvs] at hk ⊢
          by_cases hkc : ((0 + (counter + 1)) == k) = true
          · have := (hk_eq k).mp hkc
            rw [hres]
            dsimp only
            refine ⟨by omega, by omega, by rw [if_pos hkc]⟩
          · rw [if_neg hkc] at hk
            exact absurd rfl hk
        · intro i idv nm hmem
          rw [hres] at hmem
          cases hmem with
          | head =>
            rcases Bool.and_eq_true_iff.mp hstart with ⟨hids, _⟩
            rcases Bool.and_eq_true_iff.mp hids with ⟨hid, hnm⟩
            exact ⟨optTruthy_getD _ hid, optTruthy_getD _ hnm⟩
          | tail _ h => exact absurd h (hnoArg.2 i idv nm)
    · have hres : processToolDelta oracle counter tools td
          = (counter, setTool tools td.index (argStep oracle acc2 td.arguments).1,
             (argStep oracle acc2 td.arguments).2) := by
        simp only [processToolDelta]
        rw [← haccStored, ← hacc2, if_neg hstart]
      have hset := setTool_absent td.index
        ((argStep oracle acc2 td.arguments).1) tools hany'
      have hpresArg := argStep_preserves oracle acc2 td.arguments
      have hnoArg := argStep_no_toolStart oracle acc2 td.arguments
      have hnewStarted : (argStep oracle acc2 td.arguments).1.started = false := by
        rw [hpresArg.1, hpres2.1, hstored]
        rfl
      have hcontribNew : ∀ k, accContrib (argStep oracle acc2 td.arguments).1 k = 0 := by
        intro k
        unfold accContrib
        rw [hnewStarted]
        rfl
      have hcountTools : ∀ k, (startedIdxs (processToolDelta oracle counter tools td).2.1).count k
          = (startedIdxs tools).count k := by
        intro k
        rw [hres]
        dsimp only
        rw [hset, startedIdxs_append, List.count_append, count_startedIdxs_cons, hcontribNew]
        unfold startedIdxs
        simp only [List.filterMap_nil, List.count_nil]
        omega
      constructor
      · refine ⟨?_, ?_, ?_⟩
        · rw [hres]
          dsimp only
          rw [hset]
          exact keysNodup_append_absent _ _ _ hnd hany'
        · intro k
          rw [hcountTools]
          exact hle1 k
        · intro k hk
          rw [hres]
          dsimp only
          rw [hcountTools] at hk
          exact hbnd k hk
      · refine ⟨by rw [hres], ?_, ?_, ?_⟩
        · intro k
          rw [hcountTools, hres]
          dsimp only
          rw [hnoArg.1 k]
          omega
        · intro k hk
          rw [hres] at hk
          dsimp only at hk
          rw [hnoArg.1 k] at hk
          exact absurd rfl hk
        · intro i idv nm hmem
          rw [hres] at hmem
          exact absurd hmem (hnoArg.2 i idv nm)

/-! #### Composition of the tool-delta loop over a whole translation -/

theorem processToolDeltas_shift (oracle : String → Bool) :
    ∀ (tds : List ToolCallDelta) (c : Nat) (t : List (Nat × ToolAcc)) (evs : List SSE),
      tds.foldl (fun acc td =>
          let r := processToolDelta oracle acc.1 acc.2.1 td
          (r.1, r.2.1, acc.2.2 ++ r.2.2)) (c, t, evs)
        = ((processToolDeltas oracle c t tds).1,
           (processToolDeltas oracle c t tds).2.1,
           evs ++ (processToolDeltas oracle c t tds).2.2) := by
  intro tds
  induction tds with
  | nil =>
    intro c t evs
    unfold processToolDeltas
    rw [List.foldl_nil, List.foldl_nil, List.append_nil]
  | cons td rest ih =>
    intro c t evs
    unfold processToolDeltas
    rw [List.foldl_cons, List.foldl_cons]
    dsimp only
    rw [ih, ih, List.nil_append, List.append_assoc]

theorem processToolDeltas_cons (oracle : String → Bool) (c : Nat)
    (t : List (Nat × ToolAcc)) (td : ToolCallDelta) (rest : List ToolCallDelta) :
    processToolDeltas oracle c t (td :: rest)
      = ((processToolDeltas oracle (processToolDelta oracle c t td).1
            (processToolDelta oracle c t td).2.1 rest).1,
         (processToolDeltas oracle (processToolDelta oracle c t td).1
            (processToolDelta oracle c t td).2.1 rest).2.1,
         (processToolDelta oracle c t td).2.2
           ++ (processToolDeltas oracle (processToolDelta oracle c t td).1
                 (processToolDelta oracle c t td).2.1 rest).2.2) := by
  unfold processToolDeltas
  rw [List.foldl_cons]
  dsimp only
  rw [List.nil_append, processToolDeltas_shift]
  unfold processToolDeltas
  rfl

theorem processToolDeltas_step (oracle : String → Bool) :
    ∀ (tds : List ToolCallDelta) (counter : Nat) (tools : List (Nat × ToolAcc)),
      PInv counter tools →
      PInv (processToolDeltas oracle counter tools tds).1
        (processToolDeltas oracle counter tools tds).2.1 ∧
      StepSpec counter tools (processToolDeltas oracle counter tools tds).1
        (processToolDeltas oracle counter tools tds).2.1
        (processToolDeltas oracle counter tools tds).2.2 := by
  intro tds
  induction tds with
  | nil =>
    intro counter tools hInv
    exact ⟨hInv, StepSpec.rfl counter tools⟩
  | cons td rest ih =>
    intro counter tools hInv
    have h1 := processToolDelta_step oracle counter tools td hInv
    have h2 := ih (processToolDelta oracle counter tools td).1
        (processToolDelta oracle counter tools td).2.1 h1.1
    rw [processToolDeltas_cons]
    exact ⟨h2.1, StepSpec.trans h1.2 h2.2⟩

/-- Classifier for the single event kind counted by `countToolStart`. -/
def isToolStart : SSE → Bool
  | .toolBlockStart _ _ _ => true
  | _ => false

theorem countToolStart_zero (evs : List SSE) (h : ∀ e ∈ evs, isToolStart e = false)
    (k : Nat) : countToolStart evs k = 0 := by
  unfold countToolStart
  rw [List.countP_eq_zero]
  intro e he
  have hne := h e he
  cases e <;> simp_all [isToolStart]

theorem StepSpec.noStart (c : Nat) (t : List (Nat × ToolAcc)) (evs : List SSE)
    (h : ∀ e ∈ evs, isToolStart e = false) : StepSpec c t c t evs := by
  refine ⟨le_refl _, ?_, ?_, ?_⟩
  · intro k
    rw [countToolStart_zero evs h k]
    omega
  · intro k hk
    exact absurd (countToolStart_zero evs h k) hk
  · intro i idv nm hmem
    have := h _ hmem
    simp [isToolStart] at this

/-- The text-delta events of one chunk of the plain translator. -/
def chunkTextEvs (choice : SChoice) : List SSE :=
  match choice.delta.content with
  | some t => [SSE.textDelta t]
  | none => []

/-- The tool-call-delta part of one chunk of the plain translator. -/
def chunkToolRes (oracle : String → Bool) (st : TState) (choice : SChoice) :
    Nat × List (Nat × ToolAcc) × List SSE :=
  match choice.delta.tool_calls with
  | some tds => processToolDeltas oracle st.tool_block_counter st.tools tds
  | none => (st.tool_block_counter, st.tools, [])

theorem processChunkPlain_eq (oracle : String → Bool) (st : TState) (c : SChunk)
    (choice : SChoice) (rest : List SChoice) (hch : c.choices = choice :: rest) :
    (processChunkPlain oracle st c).1.tool_block_counter
        = (chunkToolRes oracle st choice).1 ∧
    (processChunkPlain oracle st c).1.tools = (chunkToolRes oracle st choice).2.1 ∧
    (processChunkPlain oracle st c).2.1
        = chunkTextEvs choice ++ (chunkToolRes oracle st choice).2.2 := by
  unfold processChunkPlain chunkTextEvs chunkToolRes
  rw [hch]
  dsimp only
  split
  · exact ⟨rfl, rfl, rfl⟩
  · exact ⟨rfl, rfl, rfl⟩

theorem processChunkPlain_nil (oracle : String → Bool) (st : TState) (c : SChunk)
    (hch : c.choices = []) : processChunkPlain oracle st c = (st, [], false) := by
  unfold processChunkPlain
  rw [hch]

theorem chunkTextEvs_noStart (choice : SChoice) :
    ∀ e ∈ chunkTextEvs choice, isToolStart e = false := by
  intro e he
  unfold chunkTextEvs at he
  split at he
  · cases he with
    | head => rfl
    | tail _ h => cases h
  · cases he

theorem chunkToolRes_step (oracle : String → Bool) (st : TState) (choice : SChoice)
    (hInv : PInv st.tool_block_counter st.tools) :
    PInv (chunkToolRes oracle st choice).1 (chunkToolRes oracle st choice).2.1 ∧
    StepSpec st.tool_block_counter st.tools (chunkToolRes oracle st choice).1
      (chunkToolRes oracle st choice).2.1 (chunkToolRes oracle st choice).2.2 := by
  unfold chunkToolRes
  cases htc : choice.delta.tool_calls with
  | some tds => exact processToolDeltas_step oracle tds st.tool_block_counter st.tools hInv
  | none => exact ⟨hInv, StepSpec.rfl _ _⟩

theorem processChunkPlain_step (oracle : String → Bool) (st : TState) (c : SChunk)
    (hInv : PInv st.tool_block_counter st.tools) :
    PInv (processChunkPlain oracle st c).1.tool_block_counter
      (processChunkPlain oracle st c).1.tools ∧
    StepSpec st.tool_block_counter st.tools
      (processChunkPlain oracle st c).1.tool_block_counter
      (processChunkPlain oracle st c).1.tools
      (processChunkPlain oracle st c).2.1 := by
  cases hch : c.choices with
  | nil =>
    rw [processChunkPlain_nil oracle st c hch]
    exact ⟨hInv, StepSpec.rfl _ _⟩
  | cons choice rest =>
    obtain ⟨h1, h2, h3⟩ := processChunkPlain_eq oracle st c choice rest hch
    rw [h1, h2, h3]
    obtain ⟨hi, hs⟩ := chunkToolRes_step oracle st choice hInv
    exact ⟨hi, StepSpec.trans (StepSpec.noStart _ _ _ (chunkTextEvs_noStart choice)) hs⟩

theorem runPlainLoop_fail (oracle : String → Bool) (ek : ExcKind) (rest : List UpEvent)
    (st : TState) :
    runPlainLoop oracle (UpEvent.fail ek :: rest) st
      = ([SSE.errorEvent "api_error" ("Streaming error: " ++
            (match ek with | .http _ m => m | .other m => m))], st, false) := rfl

theorem runPlainLoop_chunk (oracle : String → Bool) (d : Bool) (c : SChunk)
    (rest : List UpEvent) (st : TState) :
    runPlainLoop oracle (UpEvent.line d (StreamItem.chunk c) :: rest) st
      = (if (processChunkPlain oracle st c).2.2 then
          ((processChunkPlain oracle st c).2.1, (processChunkPlain oracle st c).1, true)
        else
          ((processChunkPlain oracle st c).2.1
             ++ (runPlainLoop oracle rest (processChunkPlain oracle st c).1).1,
           (runPlainLoop oracle rest (processChunkPlain oracle st c).1).2.1,
           (runPlainLoop oracle rest (processChunkPlain oracle st c).1).2.2)) := rfl

theorem runPlainLoop_step (oracle : String → Bool) :
    ∀ (items : List UpEvent) (st : TState), PInv st.tool_block_counter st.tools →
      PInv (runPlainLoop oracle items st).2.1.tool_block_counter
        (runPlainLoop oracle items st).2.1.tools ∧
      StepSpec st.tool_block_counter st.tools
        (runPlainLoop oracle items st).2.1.tool_block_counter
        (runPlainLoop oracle items st).2.1.tools
        (runPlainLoop oracle items st).1 := by
  intro items
  induction items with
  | nil =>
    intro st hInv
    exact ⟨hInv, StepSpec.rfl _ _⟩
  | cons ev rest ih =>
    intro st hInv
    cases ev with
    | fail ek =>
      rw [runPlainLoop_fail]
      refine ⟨hInv, StepSpec.noStart _ _ _ ?_⟩
      intro x hx
      cases hx with
      | head => rfl
      | tail _ h => cases h
    | line d it =>
      cases it with
      | blank => exact ih st hInv
      | nonData => exact ih st hInv
      | malformed => exact ih st hInv
      | done => exact ⟨hInv, StepSpec.rfl _ _⟩
      | chunk c =>
        have hstep := processChunkPlain_step oracle st c hInv
        rw [runPlainLoop_chunk]
        by_cases hbr : (processChunkPlain oracle st c).2.2 = true
        · rw [if_pos hbr]
          exact hstep
        · rw [if_neg hbr]
          have hrec := ih (processChunkPlain oracle st c).1 hstep.1
          exact ⟨hrec.1, StepSpec.trans hstep.2 hrec.2⟩

theorem chunkTextEvs_loopEvents (choice : SChoice) :
    ∀ e ∈ chunkTextEvs choice, isLoopEvent e = true := by
  intro e he
  unfold chunkTextEvs at he
  split at he
  · cases he with
    | head => rfl
    | tail _ h => cases h
  · cases he

theorem chunkToolRes_loopEvents (oracle : String → Bool) (st : TState) (choice : SChoice) :
    ∀ e ∈ (chunkToolRes oracle st choice).2.2, isLoopEvent e = true := by
  unfold chunkToolRes
  cases htc : choice.delta.tool_calls with
  | some tds =>
    intro e he
    unfold processToolDeltas at he
    exact processToolDeltas_loopEvents oracle tds _
      (fun y hy => absurd hy (List.not_mem_nil y)) e he
  | none =>
    intro e he
    cases he

theorem processChunkPlain_loopEvents (oracle : String → Bool) (st : TState) (c : SChunk) :
    ∀ e ∈ (processChunkPlain oracle st c).2.1, isLoopEvent e = true := by
  cases hch : c.choices with
  | nil =>
    rw [processChunkPlain_nil oracle st c hch]
    intro e he
    cases he
  | cons choice rest =>
    obtain ⟨h1, h2, h3⟩ := processChunkPlain_eq oracle st c choice rest hch
    rw [h3]
    intro e he
    rcases List.mem_append.mp he with h | h
    · exact chunkTextEvs_loopEvents choice e h
    · exact chunkToolRes_loopEvents oracle st choice e h

theorem runPlainLoop_eventKinds (oracle : String → Bool) :
    ∀ (items : List UpEvent) (st : TState),
      ∀ e ∈ (runPlainLoop oracle items st).1,
        isLoopEvent e = true ∨ isErrorEvent e = true := by
  intro items
  induction items with
  | nil =>
    intro st e he
    cases he
  | cons ev rest ih =>
    intro st e he
    cases ev with
    | fail ek =>
      rw [runPlainLoop_fail] at he
      cases he with
      | head => right; rfl
      | tail _ h => cases h
    | line d it =>
      cases it with
      | blank => exact ih st e he
      | nonData => exact ih st e he
      | malformed => exact ih st e he
      | done => cases he
      | chunk c =>
        rw [runPlainLoop_chunk] at he
        by_cases hbr : (processChunkPlain oracle st c).2.2 = true
        · rw [if_pos hbr] at he
          exact Or.inl (processChunkPlain_loopEvents oracle st c e he)
        · rw [if_neg hbr] at he
          rcases List.mem_append.mp he with h | h
          · exact Or.inl (processChunkPlain_loopEvents oracle st c e h)
          · exact ih _ e h

theorem countToolStart_append (l1 l2 : List SSE) (k : Nat) :
    countToolStart (l1 ++ l2) k = countToolStart l1 k + countToolStart l2 k := by
  unfold countToolStart
  rw [List.countP_append]

theorem countBlockStop_append (l1 l2 : List SSE) (k : Nat) :
    countBlockStop (l1 ++ l2) k = countBlockStop l1 k + countBlockStop l2 k := by
  unfold countBlockStop
  rw [List.countP_append]

theorem countBlockStop_zero (evs : List SSE) (k : Nat)
    (h : ∀ e ∈ evs, isLoopEvent e = true ∨ isErrorEvent e = true) :
    countBlockStop evs k = 0 := by
  unfold countBlockStop
  rw [List.countP_eq_zero]
  intro e he
  rcases h e he with h1 | h1 <;> cases e <;> simp_all [isLoopEvent, isErrorEvent]

theorem countBlockStop_take_le (evs : List SSE) (n k : Nat) :
    countBlockStop (evs.take n) k ≤ countBlockStop evs k := by
  unfold countBlockStop
  exact (List.take_sublist n evs).countP_le _

theorem startedStops_eq_map (st : TState) :
    startedStops st = (startedIdxs st.tools).map SSE.contentBlockStop := by
  unfold startedStops startedIdxs
  rw [List.map_filterMap]
  congr 1
  funext p
  by_cases hs : p.2.started = true
  · rw [if_pos hs, if_pos hs]
    cases hci : p.2.claude_index <;> rfl
  · rw [if_neg hs, if_neg hs]
    rfl

theorem countBlockStop_map (idxs : List Nat) (k : Nat) :
    countBlockStop (idxs.map SSE.contentBlockStop) k = idxs.count k := by
  induction idxs with
  | nil => rfl
  | cons i tl ih =>
    rw [List.map_cons]
    unfold countBlockStop at ih ⊢
    rw [List.countP_cons, List.count_cons, ih]

theorem countToolStart_map (idxs : List Nat) (k : Nat) :
    countToolStart (idxs.map SSE.contentBlockStop) k = 0 := by
  induction idxs with
  | nil => rfl
  | cons i tl ih =>
    rw [List.map_cons]
    unfold countToolStart at ih ⊢
    rw [List.countP_cons, ih]
    simp

theorem countToolStart_startEvents (model : String) (k : Nat) :
    countToolStart (startEvents model) k = 0 := rfl

theorem countBlockStop_startEvents (model : String) (k : Nat) :
    countBlockStop (startEvents model) k = 0 := rfl

theorem countToolStart_teardown (st : TState) (usage : UsageData) (k : Nat) :
    countToolStart (teardownEvents st usage) k = 0 := by
  unfold countToolStart
  rw [List.countP_eq_zero]
  intro e he
  unfold teardownEvents at he
  cases he with
  | head => simp
  | tail _ h =>
    rcases List.mem_append.mp h with h1 | h1
    · obtain ⟨j, hj⟩ := startedStops_mem st e h1
      rw [hj]
      simp
    · cases h1 with
      | head => simp
      | tail _ h2 =>
        cases h2 with
        | head => simp
        | tail _ h3 => cases h3

theorem countBlockStop_teardown (st : TState) (usage : UsageData) (k : Nat) (hk : k ≠ 0) :
    countBlockStop (teardownEvents st usage) k = (startedIdxs st.tools).count k := by
  have h0 : ((0 : Nat) == k) = false := by
    rw [Bool.eq_false_iff]
    intro hc
    exact hk (beq_iff_eq.mp hc).symm
  unfold teardownEvents
  have hcons : countBlockStop (SSE.contentBlockStop 0 :: (startedStops st ++
        [SSE.messageDelta st.final_stop_reason usage, SSE.messageStop])) k
      = countBlockStop (startedStops st ++
          [SSE.messageDelta st.final_stop_reason usage, SSE.messageStop]) k := by
    unfold countBlockStop
    refine List.countP_cons_of_neg _ _ ?_
    dsimp only
    rw [h0]
    intro hc
    cases hc
  rw [hcons, countBlockStop_append, startedStops_eq_map, countBlockStop_map]
  have htail : countBlockStop
      [SSE.messageDelta st.final_stop_reason usage, SSE.messageStop] k = 0 := rfl
  rw [htail]
  omega

theorem toolStart_not_mem_startEvents (model : String) (i : Nat) (idv nm : String) :
    SSE.toolBlockStart i idv nm ∉ startEvents model := by
  intro h
  unfold startEvents at h
  cases h with
  | tail _ h1 =>
    cases h1 with
    | tail _ h2 =>
      cases h2 with
      | tail _ h3 => cases h3

theorem toolStart_not_mem_teardown (st : TState) (usage : UsageData)
    (i : Nat) (idv nm : String) :
    SSE.toolBlockStart i idv nm ∉ teardownEvents st usage := by
  intro h
  unfold teardownEvents at h
  cases h with
  | tail _ h1 =>
    rcases List.mem_append.mp h1 with h2 | h2
    · obtain ⟨j, hj⟩ := startedStops_mem st _ h2
      cases hj
    · cases h2 with
      | tail _ h3 =>
        cases h3 with
        | tail _ h4 => cases h4

theorem PInv_init : PInv 0 ([] : List (Nat × ToolAcc)) := by
  refine ⟨List.nodup_nil, ?_, ?_⟩
  · intro k
    simp [startedIdxs]
  · intro k hk
    simp [startedIdxs] at hk

/--
C5.  In every streaming translation, for each output index the translator
emits `content_block_start` for a tool block at most once over the whole
event stream (so each allocated tool index is started exactly once), and only
after both the tool-call id and name have been received: every emitted tool
`content_block_start` carries a nonempty id and a nonempty name.  Moreover, at
every prefix of the event stream, `content_block_stop` events for a nonzero
index never outnumber the `content_block_start` events for that index (a
matching stop comes only after the start, only for started blocks), and when
the translation completes normally each started tool block receives its
matching `content_block_stop` exactly once: for every nonzero index the stop
count equals the start count.
-/
theorem tool_block_start_stop_exactly_once (oracle : String → Bool) (model : String)
    (items : List UpEvent) :
    (∀ k, countToolStart (convert_openai_streaming_to_claude oracle model items).events k ≤ 1) ∧
    (∀ i idv nm, SSE.toolBlockStart i idv nm ∈
        (convert_openai_streaming_to_claude oracle model items).events →
        idv ≠ "" ∧ nm ≠ "") ∧
    (∀ n k, k ≠ 0 →
        countBlockStop (((convert_openai_streaming_to_claude oracle model items).events).take n) k
          ≤ countToolStart
              (((convert_openai_streaming_to_claude oracle model items).events).take n) k) ∧
    ((convert_openai_streaming_to_claude oracle model items).completed = true →
      ∀ k, k ≠ 0 →
        countBlockStop (convert_openai_streaming_to_claude oracle model items).events k
          = countToolStart (convert_openai_streaming_to_claude oracle model items).events k) := by
  have hloop := runPlainLoop_step oracle items initTState PInv_init
  have hkinds := runPlainLoop_eventKinds oracle items initTState
  have h2 := hloop.2
  unfold StepSpec at h2
  obtain ⟨hmono, hcnt, huniq, hids⟩ := h2
  have hinit0 : ∀ k, (startedIdxs initTState.tools).count k = 0 := fun k => rfl
  by_cases hdone : (runPlainLoop oracle items initTState).2.2 = true
  · have hres : convert_openai_streaming_to_claude oracle model items
        = ⟨startEvents model ++ (runPlainLoop oracle items initTState).1
             ++ teardownEvents (runPlainLoop oracle items initTState).2.1 ⟨0, 0, none, none⟩,
           false, none, true⟩ := by
      unfold convert_openai_streaming_to_claude
      dsimp only
      rw [if_pos hdone]
    have hev : (convert_openai_streaming_to_claude oracle model items).events
        = startEvents model ++ (runPlainLoop oracle items initTState).1
            ++ teardownEvents (runPlainLoop oracle items initTState).2.1 ⟨0, 0, none, none⟩ := by
      rw [hres]
    have hA0 : ∀ k, countBlockStop
        (startEvents model ++ (runPlainLoop oracle items initTState).1) k = 0 := by
      intro k
      rw [countBlockStop_append, countBlockStop_startEvents, countBlockStop_zero _ k hkinds]
    refine ⟨?_, ?_, ?_, ?_⟩
    · intro k
      rw [hev, countToolStart_append, countToolStart_append, countToolStart_startEvents,
        countToolStart_teardown]
      by_cases hz : countToolStart (runPlainLoop oracle items initTState).1 k = 0
      · omega
      · have := (huniq k hz).2.2
        omega
    · intro i idv nm hmem
      rw [hev] at hmem
      rcases List.mem_append.mp hmem with h1 | h1
      · rcases List.mem_append.mp h1 with hm2 | hm2
        · exact absurd hm2 (toolStart_not_mem_startEvents model i idv nm)
        · exact hids i idv nm hm2
      · exact absurd h1 (toolStart_not_mem_teardown _ _ i idv nm)
    · intro n k hk
      rw [hev, List.take_append_eq_append_take, countBlockStop_append, countToolStart_append]
      by_cases hn : n ≤ (startEvents model ++ (runPlainLoop oracle items initTState).1).length
      · have hz : n - (startEvents model
            ++ (runPlainLoop oracle items initTState).1).length = 0 :=
          Nat.sub_eq_zero_of_le hn
        rw [hz, List.take_zero]
        have h1 : countBlockStop ((startEvents model
            ++ (runPlainLoop oracle items initTState).1).take n) k = 0 :=
          Nat.le_zero.mp (hA0 k ▸ countBlockStop_take_le _ n k)
        have hnilBS : countBlockStop ([] : List SSE) k = 0 := rfl
        rw [h1, hnilBS]
        omega
      · push_neg at hn
        have hA : (startEvents model ++ (runPlainLoop oracle items initTState).1).take n
            = startEvents model ++ (runPlainLoop oracle items initTState).1 :=
          List.take_of_length_le (le_of_lt hn)
        rw [hA, hA0 k, countToolStart_append, countToolStart_startEvents]
        have htake := countBlockStop_take_le
          (teardownEvents (runPlainLoop oracle items initTState).2.1 ⟨0, 0, none, none⟩)
          (n - (startEvents model ++ (runPlainLoop oracle items initTState).1).length) k
        rw [countBlockStop_teardown _ _ k hk, hcnt k, hinit0 k] at htake
        omega
    · intro hcompleted k hk
      rw [hev, countBlockStop_append, countBlockStop_append, countBlockStop_startEvents,
        countBlockStop_teardown _ _ k hk, countToolStart_append, countToolStart_append,
        countToolStart_startEvents, countToolStart_teardown]
      have hz : countBlockStop (runPlainLoop oracle items initTState).1 k = 0 :=
        countBlockStop_zero _ k hkinds
      rw [hz, hcnt k, hinit0 k]
      omega
  · have hres : convert_openai_streaming_to_claude oracle model items
        = ⟨startEvents model ++ (runPlainLoop oracle items initTState).1,
           false, none, false⟩ := by
      unfold convert_openai_streaming_to_claude
      dsimp only
      rw [if_neg hdone]
    have hev : (convert_openai_streaming_to_claude oracle model items).events
        = startEvents model ++ (runPlainLoop oracle items initTState).1 := by
      rw [hres]
    have hco : (convert_openai_streaming_to_claude oracle model items).completed = false := by
      rw [hres]
    have hA0 : ∀ k, countBlockStop
        (startEvents model ++ (runPlainLoop oracle items initTState).1) k = 0 := by
      intro k
      rw [countBlockStop_append, countBlockStop_startEvents, countBlockStop_zero _ k hkinds]
    refine ⟨?_, ?_, ?_, ?_⟩
    · intro k
      rw [hev, countToolStart_append, countToolStart_startEvents]
      by_cases hz : countToolStart (runPlainLoop oracle items initTState).1 k = 0
      · omega
      · have := (huniq k hz).2.2
        omega
    · intro i idv nm hmem
      rw [hev] at hmem
      rcases List.mem_append.mp hmem with h1 | h1
      · exact absurd h1 (toolStart_not_mem_startEvents model i idv nm)
      · exact hids i idv nm h1
    · intro n k hk
      rw [hev]
      have h1 : countBlockStop ((startEvents model
          ++ (runPlainLoop oracle items initTState).1).take n) k = 0 :=
        Nat.le_zero.mp (hA0 k ▸ countBlockStop_take_le _ n k)
      rw [h1]
      omega
    · intro hcompleted k hk
      rw [hco] at hcompleted
      exact absurd hcompleted Bool.false_ne_true

/-- A concrete oracle and upstream stream for exercising the tool-block
discipline: one tool call (index 0) whose id, name and complete argument
fragment arrive in one delta, then a finish chunk. -/
def c5Oracle : String → Bool := fun s => s == "1"

def c5Items : List UpEvent :=
  [UpEvent.line false (StreamItem.chunk
     ⟨[⟨⟨none, some [⟨0, some "id1", some "fn", some "1"⟩]⟩, none⟩], none⟩),
   UpEvent.line false (StreamItem.chunk ⟨[⟨⟨none, none⟩, some "tool_calls"⟩], none⟩),
   UpEvent.line false StreamItem.done]

theorem tool_block_start_stop_exactly_once_witness :
    (convert_openai_streaming_to_claude c5Oracle "m" c5Items).completed = true ∧
    countToolStart (convert_openai_streaming_to_claude c5Oracle "m" c5Items).events 1 = 1 ∧
    countBlockStop (convert_openai_streaming_to_claude c5Oracle "m" c5Items).events 1 = 1 := by
  refine ⟨by decide, by decide, ?_⟩
  have h := (tool_block_start_stop_exactly_once c5Oracle "m" c5Items).2.2.2
    (by decide) 1 (by decide)
  rw [h]
  decide

/-! ## Streaming dispatch (src/core/client.py, create_chat_completion_stream) -/

/-- Substring test on character lists (Python `in` on strings). -/
def hasSub (sub s : List Char) : Bool :=
  (List.range (s.length + 1)).any (fun i => sub.isPrefixOf (s.drop i))

/-- `classify_openai_error`: lowercase the detail and return specific guidance
for known failure modes, else the original detail. -/
def classify_openai_error (error_detail : String) : String :=
  let error_str := error_detail.data.map Char.toLower
  if hasSub "unsupported_country_region_territory".data error_str
      || hasSub "country, region, or territory not supported".data error_str then
    "OpenAI API is not available in your region. Consider using a VPN or Azure OpenAI service."
  else if hasSub "invalid_api_key".data error_str || hasSub "unauthorized".data error_str then
    "Invalid API key. Please check your OPENAI_API_KEY configuration."
  else if hasSub "rate_limit".data error_str || hasSub "quota".data error_str then
    "Rate limit exceeded. Please wait and try again, or upgrade your API plan."
  else if hasSub "model".data error_str
      && (hasSub "not found".data error_str || hasSub "does not exist".data error_str) then
    "Model not found. Please check your BIG_MODEL and SMALL_MODEL configuration."
  else if hasSub "billing".data error_str || hasSub "payment".data error_str then
    "Billing issue. Please check your OpenAI account billing status."
  else error_detail

/-- The exception raised by one upstream streaming attempt, mirroring the
`except` clauses of `create_chat_completion_stream`: `AuthenticationError`,
`RateLimitError`, `BadRequestError`, `APIError` (with its `status_code`) and
any other `Exception`. -/
inductive UpErr where
  | auth (msg : String)
  | rateLimit (msg : String)
  | badRequest (msg : String)
  | apiError (status : Nat) (msg : String)
  | other (msg : String)
deriving DecidableEq, Repr

/-- The observable behaviour of one upstream streaming call: the chunk
payloads the iterator produces (each yielded downstream as `"data: " ++ json`)
followed either by normal exhaustion (`err = none`) or by an exception raised
mid-iteration, AFTER those chunks were already yielded. -/
structure Behavior where
  chunks : List String
  err : Option UpErr
deriving DecidableEq, Repr

/-- How a streaming dispatch call ends: the generator returns normally after
`data: [DONE]`, or an `HTTPException(status, detail)` propagates. -/
inductive StreamOutcome where
  | ended
  | raised (status : Nat) (detail : String)
deriving DecidableEq, Repr

/-- The retry loop of `create_chat_completion_stream` (no cancellation token,
matching a call without `request_id`; `time.time()` frozen at `now`).  The
first argument of the fuel counter is `max_attempts - attempts`, which
decreases exactly when `attempts += 1; continue` runs; `n` numbers the
upstream calls so `behaviors n` is the behaviour of the `n`-th attempt.
Yields accumulate across attempts: output already delivered downstream stays
delivered when a later attempt appends more. -/
def streamDispatchGo (behaviors : Nat → Behavior) (now : Int) :
    Nat → Nat → KMState → Option (Nat × String) →
    List String × StreamOutcome × KMState
  | 0, _, st, lastExc =>
    match lastExc with
    | some (s, d) => ([], .raised s d, st)
    | none => ([], .raised 503 "All API keys failed", st)
  | rem + 1, n, st, lastExc =>
    match getNextKey st now with
    | (none, st') =>
      (match lastExc with
       | some (s, d) => ([], .raised s d, st')
       | none => ([], .raised 503 "All API keys are temporarily unavailable", st'))
    | (some key, st') =>
      let b := behaviors n
      let out := b.chunks.map (fun c => "data: " ++ c)
      match b.err with
      | none => (out ++ ["data: [DONE]"], .ended, st')
      | some e =>
        match e with
        | .auth msg =>
          let r := streamDispatchGo behaviors now rem (n + 1) (markKeyFailed st' key now)
            (some (401, classify_openai_error msg))
          (out ++ r.1, r.2.1, r.2.2)
        | .rateLimit msg =>
          let r := streamDispatchGo behaviors now rem (n + 1) (markKeyFailed st' key now)
            (some (429, classify_openai_error msg))
          (out ++ r.1, r.2.1, r.2.2)
        | .badRequest msg => (out, .raised 400 (classify_openai_error msg), st')
        | .apiError status msg =>
          if 500 ≤ status then
            let r := streamDispatchGo behaviors now rem (n + 1) (markKeyFailed st' key now)
              (some (status, classify_openai_error msg))
            (out ++ r.1, r.2.1, r.2.2)
          else (out, .raised status (classify_openai_error msg), st')
        | .other msg =>
          let r := streamDispatchGo behaviors now rem (n + 1) (markKeyFailed st' key now)
            (some (500, "Unexpected error: " ++ msg))
          (out ++ r.1, r.2.1, r.2.2)

/-- `create_chat_completion_stream`: `max_attempts` is the available-key count
computed once on entry; `attempts` starts at 0 and `last_exception` at None. -/
def create_chat_completion_stream (behaviors : Nat → Behavior) (now : Int)
    (st : KMState) : List String × StreamOutcome × KMState :=
  streamDispatchGo behaviors now (availableKeyCount st now) 0 st none

/-- The (status, detail) recorded in `last_exception` by the handler of a
retryable failure, and `none` for the failures that raise immediately:
`BadRequestError`, and `APIError` with status below 500. -/
def retryErr : UpErr → Option (Nat × String)
  | .auth msg => some (401, classify_openai_error msg)
  | .rateLimit msg => some (429, classify_openai_error msg)
  | .badRequest _ => none
  | .apiError status msg =>
    if 500 ≤ status then some (status, classify_openai_error msg) else none
  | .other msg => some (500, "Unexpected error: " ++ msg)

/-- The two-credential scenario refuting C1: the first attempt yields one
chunk downstream and then raises an unexpected error; the second attempt
streams to completion. -/
def exC1Behaviors : Nat → Behavior
  | 0 => ⟨["c1"], some (.other "boom")⟩
  | _ => ⟨["c2"], none⟩

/--
C1 counterexample.  With two credentials, a chunk of attempt 0 is delivered
downstream ("data: c1") BEFORE attempt 0 fails with an unexpected error; the
dispatcher nevertheless marks the key failed and re-dispatches with the next
credential, and the call completes with the second attempt's output appended
after the already-delivered chunk — a mid-stream failover after output was
delivered, which the claim asserts never happens.
-/
theorem streaming_failover_after_output_delivered :
    (exC1Behaviors 0).chunks ≠ [] ∧
    (exC1Behaviors 0).err = some (UpErr.other "boom") ∧
    (create_chat_completion_stream exC1Behaviors 1000 (initKM ["k1", "k2"] 60)).1
      = ["data: c1", "data: c2", "data: [DONE]"] ∧
    (create_chat_completion_stream exC1Behaviors 1000 (initKM ["k1", "k2"] 60)).2.1
      = StreamOutcome.ended := by
  refine ⟨by decide, rfl, ?_, ?_⟩ <;> rfl

/--
C1 amended.  In the streaming dispatch loop, a mid-stream failure is handled
the same way whether or not output has already been delivered: if the
upstream attempt raises a retryable exception (`AuthenticationError`,
`RateLimitError`, an `APIError` with status ≥ 500, or an unexpected
exception) after yielding any number of chunks, the credential is marked
failed and the request is re-dispatched with the next credential while
attempts remain, the next attempt's output being appended after the
already-delivered chunks; the call terminates immediately only for
`BadRequestError` and `APIError` with status < 500, which raise with exactly
the already-delivered chunks as output.
-/
theorem stream_mid_failure_retry_semantics (behaviors : Nat → Behavior) (now : Int)
    (rem n : Nat) (st : KMState) (lastExc : Option (Nat × String)) (key : String)
    (st' : KMState) (chunks : List String) (e : UpErr)
    (hkey : getNextKey st now = (some key, st'))
    (hb : behaviors n = ⟨chunks, some e⟩) :
    (∀ s d, retryErr e = some (s, d) →
      streamDispatchGo behaviors now (rem + 1) n st lastExc
        = (chunks.map (fun c => "data: " ++ c)
             ++ (streamDispatchGo behaviors now rem (n + 1)
                   (markKeyFailed st' key now) (some (s, d))).1,
           (streamDispatchGo behaviors now rem (n + 1)
              (markKeyFailed st' key now) (some (s, d))).2.1,
           (streamDispatchGo behaviors now rem (n + 1)
              (markKeyFailed st' key now) (some (s, d))).2.2)) ∧
    (retryErr e = none →
      ∃ s d, streamDispatchGo behaviors now (rem + 1) n st lastExc
        = (chunks.map (fun c => "data: " ++ c), StreamOutcome.raised s d, st')) := by
  constructor
  · intro s d hsd
    cases e with
    | auth msg =>
      unfold retryErr at hsd
      rw [Option.some.injEq, Prod.mk.injEq] at hsd
      obtain ⟨hs, hd⟩ := hsd
      subst hs
      subst hd
      simp only [streamDispatchGo]
      rw [hkey]
      dsimp only
      rw [hb]
    | rateLimit msg =>
      unfold retryErr at hsd
      rw [Option.some.injEq, Prod.mk.injEq] at hsd
      obtain ⟨hs, hd⟩ := hsd
      subst hs
      subst hd
      simp only [streamDispatchGo]
      rw [hkey]
      dsimp only
      rw [hb]
    | badRequest msg =>
      unfold retryErr at hsd
      cases hsd
    | apiError status msg =>
      unfold retryErr at hsd
      dsimp only at hsd
      by_cases h5 : 500 ≤ status
      · rw [if_pos h5] at hsd
        rw [Option.some.injEq, Prod.mk.injEq] at hsd
        obtain ⟨hs, hd⟩ := hsd
        subst hs
        subst hd
        simp only [streamDispatchGo]
        rw [hkey]
        dsimp only
        rw [hb]
        dsimp only
        rw [if_pos h5]
      · rw [if_neg h5] at hsd
        cases hsd
    | other msg =>
      unfold retryErr at hsd
      rw [Option.some.injEq, Prod.mk.injEq] at hsd
      obtain ⟨hs, hd⟩ := hsd
      subst hs
      subst hd
      simp only [streamDispatchGo]
      rw [hkey]
      dsimp only
      rw [hb]
  · intro hnone
    unfold retryErr at hnone
    cases e with
    | auth msg => cases hnone
    | rateLimit msg => cases hnone
    | other msg => cases hnone
    | badRequest msg =>
      refine ⟨400, classify_openai_error msg, ?_⟩
      simp only [streamDispatchGo]
      rw [hkey]
      dsimp only
      rw [hb]
    | apiError status msg =>
      dsimp only at hnone
      by_cases h5 : 500 ≤ status
      · rw [if_pos h5] at hnone
        cases hnone
      · refine ⟨status, classify_openai_error msg, ?_⟩
        simp only [streamDispatchGo]
        rw [hkey]
        dsimp only
        rw [hb]
        dsimp only
        rw [if_neg h5]

/-- Witness for the amended C1: the concrete two-credential scenario, with a
chunk already delivered, re-dispatches after the unexpected error and appends
the next credential's chunks. -/
theorem stream_mid_failure_retry_semantics_witness :
    getNextKey (initKM ["k1", "k2"] 60) 1000
      = (some "k1", (getNextKey (initKM ["k1", "k2"] 60) 1000).2) ∧
    retryErr (UpErr.other "boom") = some (500, "Unexpected error: boom") ∧
    streamDispatchGo exC1Behaviors 1000 2 0 (initKM ["k1", "k2"] 60) none
      = (["c1"].map (fun c => "data: " ++ c)
           ++ (streamDispatchGo exC1Behaviors 1000 1 1
                 (markKeyFailed (getNextKey (initKM ["k1", "k2"] 60) 1000).2 "k1" 1000)
                 (some (500, "Unexpected error: boom"))).1,
         (streamDispatchGo exC1Behaviors 1000 1 1
            (markKeyFailed (getNextKey (initKM ["k1", "k2"] 60) 1000).2 "k1" 1000)
            (some (500, "Unexpected error: boom"))).2.1,
         (streamDispatchGo exC1Behaviors 1000 1 1
            (markKeyFailed (getNextKey (initKM ["k1", "k2"] 60) 1000).2 "k1" 1000)
            (some (500, "Unexpected error: boom"))).2.2) :=
  ⟨by decide, rfl,
   (stream_mid_failure_retry_semantics exC1Behaviors 1000 1 0 (initKM ["k1", "k2"] 60)
      none "k1" (getNextKey (initKM ["k1", "k2"] 60) 1000).2 ["c1"] (UpErr.other "boom")
      (by decide) rfl).1 500 "Unexpected error: boom" rfl⟩

end CCProxy
